import Mathlib

/-!
Verification development for the maptoposter-online WASM rendering core.

The Rust sources under `src/wasm/src/` are shallowly embedded here:
* `f64` / `f32` values are idealised as real numbers `ℝ` where the code does
  projection or screen-space arithmetic, and as exact rationals `ℚ` where the
  code does per-pixel compositing (the claims at stake are structural and do
  not depend on floating-point rounding);
* Rust's `as usize` cast of a float is `asUsize` (floor, saturating at 0);
* byte strings (`&str`) are `List ℕ` of UTF-8 bytes, so that byte-length
  checks and slice char-boundary panics are modelled faithfully;
* fallible operations (`Result`, slice indexing that can panic, the
  `PremultipliedColorU8::from_rgba(..).unwrap()` calls) return `Except` or
  `Option`, with `none` marking a panic.
-/

namespace MapPoster

/-- A projected or geographic coordinate pair, `(f64, f64)` in the source. -/
abbrev Point : Type := ℝ × ℝ

/-- Rust `x as usize` on a nonnegative float: floor, with negatives
saturating to 0 (`Int.toNat` of the floor). -/
noncomputable def asUsize (x : ℝ) : ℕ := (⌊x⌋).toNat

/-- `types.rs`: the six road classes, wire discriminants 0-5. -/
inductive RoadType where
  | Motorway
  | Primary
  | Secondary
  | Tertiary
  | Residential
  | Default
deriving DecidableEq

/-- `RoadType::from_u32` from `types.rs`: 0..4 map to the named classes,
everything else falls through to `Default`. -/
def RoadType.from_u32 (n : ℕ) : RoadType :=
  match n with
  | 0 => .Motorway
  | 1 => .Primary
  | 2 => .Secondary
  | 3 => .Tertiary
  | 4 => .Residential
  | _ => .Default

/-- `RoadType::to_u32` from `types.rs`. -/
def RoadType.to_u32 : RoadType → ℕ
  | .Motorway => 0
  | .Primary => 1
  | .Secondary => 2
  | .Tertiary => 3
  | .Residential => 4
  | .Default => 5

/-- `RoadType::get_width_scaled` from `types.rs`: base width times the
dynamic scale factor. -/
noncomputable def RoadType.get_width_scaled (t : RoadType) (scale_factor : ℝ) : ℝ :=
  (match t with
   | .Motorway => 1.2
   | .Primary => 1
   | .Secondary => 0.8
   | .Tertiary => 0.6
   | .Residential => 0.4
   | .Default => 0.4) * scale_factor

/-- `calculate_road_width_scale` from `types.rs`: divides the selected
height by the reference height 4800; the second parameter is unused. -/
noncomputable def calculate_road_width_scale (selected_size_height _frontend_scale : ℝ) : ℝ :=
  selected_size_height / 4800

/-- `types.rs` `Road`: an ordered coordinate list with a road class. -/
structure Road where
  coords : List Point
  road_type : RoadType

/-- `types.rs` `PolyFeature`: exterior ring plus interior (hole) rings. -/
structure PolyFeature where
  exterior : List Point
  interiors : List (List Point)

/-- `projection.rs` `project_point`: spherical-Mercator forward projection
with Earth radius 6378137 m. -/
noncomputable def project_point (lon lat : ℝ) : Point :=
  let lonRad := lon * (Real.pi / 180)
  let latRad := lat * (Real.pi / 180)
  (lonRad * 6378137, Real.arsinh (Real.tan latRad) * 6378137)

/-- `project_point` applied to a pair, as `project_points` maps it. -/
noncomputable def projPair (p : Point) : Point := project_point p.1 p.2

/-- `types.rs` `BoundingBox` of projected coordinates. -/
structure BoundingBox where
  min_x : ℝ
  max_x : ℝ
  min_y : ℝ
  max_y : ℝ

/-- `BoundingBox::width`. -/
noncomputable def BoundingBox.width (b : BoundingBox) : ℝ := b.max_x - b.min_x

/-- `BoundingBox::height`. -/
noncomputable def BoundingBox.height (b : BoundingBox) : ℝ := b.max_y - b.min_y

/-- `projection.rs` `calculate_bounds`: projects the center, then uses the
fixed radius as half-extent on both axes and stretches the axis matching the
longer canvas side by the aspect ratio. -/
noncomputable def calculate_bounds (center_lat center_lon radius : ℝ)
    (width height : ℕ) : BoundingBox :=
  let c := project_point center_lon center_lat
  let aspect : ℝ := (width : ℝ) / (height : ℝ)
  let fh : ℝ × ℝ := if 1 < aspect then (radius * aspect, radius) else (radius, radius / aspect)
  ⟨c.1 - fh.1, c.1 + fh.1, c.2 - fh.2, c.2 + fh.2⟩

/-! ## Binary geometry codec (`data_processor.rs`, encode loops of `lib.rs`)

The Rust decoders walk a `&[f64]` with an explicit `offset` cursor, checking
`offset + k > data.len()` before each access.  The embedding consumes the
same buffer as a list: reading at the cursor is pattern-matching the head,
the bounds checks become length tests on the remaining list, and advancing
the cursor by `2 * count` is `List.drop (2 * count)`. -/

/-- Reassemble the flat `x1, y1, x2, y2, ...` coordinate stream into pairs,
as the decoders' inner `for _ in 0..count { push (data[o], data[o+1]) }`
loops do. -/
def pairs : List ℝ → List Point
  | x :: y :: rest => (x, y) :: pairs rest
  | _ => []

/-- Record loop of `parse_roads_bin`, parameterised by the coordinate
transform applied at storage time (`project_points` in the source).  A
record is `type, point_count, coords…`; if fewer than two header values
remain, or the declared coordinates do not fit, the loop breaks and the
records parsed so far are kept. -/
noncomputable def parseRoadsGo (proj : Point → Point) : ℕ → List ℝ → List Road
  | 0, _ => []
  | n + 1, tv :: cv :: rest =>
      let point_count := asUsize cv
      if 2 * point_count ≤ rest.length then
        ⟨(pairs (rest.take (2 * point_count))).map proj, RoadType.from_u32 (asUsize tv)⟩ ::
          parseRoadsGo proj n (rest.drop (2 * point_count))
      else []
  | _ + 1, _ => []

/-- `parse_roads_bin` with an explicit coordinate transform. -/
noncomputable def parseRoadsListP (proj : Point → Point) (data : List ℝ) : List Road :=
  match data with
  | [] => []
  | c :: rest => parseRoadsGo proj (asUsize c) rest

/-- `data_processor.rs` `parse_roads_bin`: decodes the roads wire buffer,
projecting every coordinate through `project_point`; always returns `Ok`. -/
noncomputable def parse_roads_bin (data : List ℝ) : Except String (List Road) :=
  .ok (parseRoadsListP projPair data)

/-- `parse_roads_bin` with the projection step removed (the decode the
pre-projected binary fast path corresponds to). -/
noncomputable def parseRoadsBinNoProj (data : List ℝ) : List Road :=
  parseRoadsListP (fun p => p) data

/-- Interior-ring loop of `parse_polygons_bin`.  Returns the rings decoded
and the remaining buffer.  On a missing ring header (`offset + 1 > len`)
the loop breaks with an empty remainder; on insufficient ring coordinates
it breaks with the remainder positioned after the ring header. -/
noncomputable def parseIntGo (proj : Point → Point) : ℕ → List ℝ → List (List Point) × List ℝ
  | 0, rest => ([], rest)
  | _ + 1, [] => ([], [])
  | n + 1, cv :: rest =>
      let ring_point_count := asUsize cv
      if 2 * ring_point_count ≤ rest.length then
        let res := parseIntGo proj n (rest.drop (2 * ring_point_count))
        ((pairs (rest.take (2 * ring_point_count))).map proj :: res.1, res.2)
      else ([], rest)

/-- Record loop of `parse_polygons_bin`.  A record is
`ext_count, interior_ring_count, exterior coords…, rings…`; an incomplete
header or exterior breaks the whole loop, while a truncation inside the
interior rings still pushes the feature (with the rings parsed so far) and
continues with the next record. -/
noncomputable def parsePolysGo (proj : Point → Point) : ℕ → List ℝ → List PolyFeature
  | 0, _ => []
  | n + 1, ec :: ic :: rest =>
      let exterior_count := asUsize ec
      let interior_ring_count := asUsize ic
      if 2 * exterior_count ≤ rest.length then
        let ir := parseIntGo proj interior_ring_count (rest.drop (2 * exterior_count))
        ⟨(pairs (rest.take (2 * exterior_count))).map proj, ir.1⟩ :: parsePolysGo proj n ir.2
      else []
  | _ + 1, _ => []

/-- `parse_polygons_bin` with an explicit coordinate transform. -/
noncomputable def parsePolysListP (proj : Point → Point) (data : List ℝ) : List PolyFeature :=
  match data with
  | [] => []
  | c :: rest => parsePolysGo proj (asUsize c) rest

/-- `data_processor.rs` `parse_polygons_bin`; always returns `Ok`. -/
noncomputable def parse_polygons_bin (data : List ℝ) : Except String (List PolyFeature) :=
  .ok (parsePolysListP projPair data)

/-- Body of the roads wire buffer: per road `type, point_count, coords…`,
the encode loop of `process_roads_bin_wasm` in `lib.rs`. -/
noncomputable def roadsBody (roads : List Road) : List ℝ :=
  roads.flatMap (fun r =>
    ((r.road_type.to_u32 : ℕ) : ℝ) :: ((r.coords.length : ℕ) : ℝ) ::
      r.coords.flatMap (fun p => [p.1, p.2]))

/-- Full roads wire buffer: road count followed by the records
(`process_roads_bin_wasm`, `lib.rs`). -/
noncomputable def encodeRoads (roads : List Road) : List ℝ :=
  ((roads.length : ℕ) : ℝ) :: roadsBody roads

/-- Body of the polygons wire buffer (`process_polygons_bin_wasm`,
`lib.rs`): per feature `ext_count, interior_ring_count, exterior coords…`,
then per ring `ring_count, coords…`. -/
noncomputable def polysBody (polys : List PolyFeature) : List ℝ :=
  polys.flatMap (fun poly =>
    ((poly.exterior.length : ℕ) : ℝ) :: ((poly.interiors.length : ℕ) : ℝ) ::
      (poly.exterior.flatMap (fun p => [p.1, p.2]) ++
        poly.interiors.flatMap (fun ring =>
          ((ring.length : ℕ) : ℝ) :: ring.flatMap (fun p => [p.1, p.2]))))

/-- Full polygons wire buffer: feature count followed by the records. -/
noncomputable def encodePolys (polys : List PolyFeature) : List ℝ :=
  ((polys.length : ℕ) : ℝ) :: polysBody polys

/-! ## Renderer path building (`renderer.rs`)

`MapRenderer` holds the pixmap, theme, bounds and the derived per-axis
factors.  The drawing methods build `tiny_skia` paths; a path is embedded
as a list of subpaths, each subpath the list of screen points fed to one
`move_to` followed by its `line_to`s. -/

/-- One `move_to`/`line_to…` run of a `PathBuilder`. -/
abbrev Subpath := List Point

/-- The renderer state that path building depends on: canvas size and the
bounding box (`MapRenderer::new` derives `x_factor`/`y_factor` from them). -/
structure RenderCfg where
  width : ℕ
  height : ℕ
  bounds : BoundingBox

/-- `MapRenderer::world_to_screen`: linear map by the per-axis factors with
the Y axis flipped. -/
noncomputable def world_to_screen (cfg : RenderCfg) (coord : Point) : Point :=
  ((coord.1 - cfg.bounds.min_x) * ((cfg.width : ℝ) / cfg.bounds.width),
   (cfg.height : ℝ) - (coord.2 - cfg.bounds.min_y) * ((cfg.height : ℝ) / cfg.bounds.height))

/-- Per-class subpaths built by `draw_roads` / `draw_roads_scaled`: the
roads are grouped by `road_type`; within a group, roads with fewer than two
coordinates are skipped and each remaining road contributes one
`move_to`/`line_to…` run over its screen coordinates, in input order. -/
noncomputable def draw_roads_subpaths (cfg : RenderCfg) (roads : List Road)
    (t : RoadType) : List Subpath :=
  roads.filterMap (fun r =>
    if r.road_type = t ∧ 2 ≤ r.coords.length then
      some (r.coords.map (world_to_screen cfg))
    else none)

/-- Single-pass record loop of `draw_roads_bin` / `draw_roads_bin_scaled`:
emits `(bucket, subpath)` pairs in record order.  A record adds a subpath to
bucket `t` only when `t < 6`, its coordinates fit in the buffer, and it has
at least two points; the cursor always advances past the declared
coordinates. -/
noncomputable def binRoadGo (cfg : RenderCfg) : ℕ → List ℝ → List (ℕ × Subpath)
  | 0, _ => []
  | n + 1, tv :: cv :: rest =>
      let t := asUsize tv
      let count := asUsize cv
      let tail := binRoadGo cfg n (rest.drop (2 * count))
      if t < 6 ∧ 2 * count ≤ rest.length ∧ 2 ≤ count then
        (t, (pairs (rest.take (2 * count))).map (world_to_screen cfg)) :: tail
      else tail
  | _ + 1, _ => []

/-- The path content of bucket `t` after the record loop of
`draw_roads_bin` / `draw_roads_bin_scaled` (the `pbs[t]` path builder). -/
noncomputable def draw_roads_bin_subpaths (cfg : RenderCfg) (data : List ℝ)
    (t : ℕ) : List Subpath :=
  match data with
  | [] => []
  | c :: rest => (binRoadGo cfg (asUsize c) rest).filterMap
      (fun p => if p.1 = t then some p.2 else none)

/-- The raw `type` field of every record the roads decoders fully read
(header and coordinates present), in record order. -/
noncomputable def binRoadTypeValsGo : ℕ → List ℝ → List ℕ
  | 0, _ => []
  | n + 1, tv :: cv :: rest =>
      let count := asUsize cv
      if 2 * count ≤ rest.length then
        asUsize tv :: binRoadTypeValsGo n (rest.drop (2 * count))
      else []
  | _ + 1, _ => []

/-- Type fields of the complete records of a roads wire buffer. -/
noncomputable def roadTypeValsOf (data : List ℝ) : List ℕ :=
  match data with
  | [] => []
  | c :: rest => binRoadTypeValsGo (asUsize c) rest

/-- Theme configuration: the eleven hex color strings, as UTF-8 bytes. -/
structure Theme where
  bg : List ℕ
  text : List ℕ
  gradient_color : List ℕ
  water : List ℕ
  parks : List ℕ
  road_motorway : List ℕ
  road_primary : List ℕ
  road_secondary : List ℕ
  road_tertiary : List ℕ
  road_residential : List ℕ
  road_default : List ℕ

/-- The `match road_type { … => &self.theme.road_… }` color lookup shared by
`draw_roads`, `draw_roads_scaled`, `draw_roads_bin` and
`draw_roads_bin_scaled`. -/
def roadThemeColor (theme : Theme) : RoadType → List ℕ
  | .Motorway => theme.road_motorway
  | .Primary => theme.road_primary
  | .Secondary => theme.road_secondary
  | .Tertiary => theme.road_tertiary
  | .Residential => theme.road_residential
  | .Default => theme.road_default

/-- Ring loop of `draw_polygons_bin` over one record's interior rings; a
ring is added to the fill path only when its coordinates fit and it has at
least three points; the cursor always advances past the declared
coordinates.  Returns the added subpaths and the remaining buffer. -/
noncomputable def binPolyIntGo (cfg : RenderCfg) : ℕ → List ℝ → List Subpath × List ℝ
  | 0, rest => ([], rest)
  | _ + 1, [] => ([], [])
  | n + 1, cv :: rest =>
      let count := asUsize cv
      let tail := binPolyIntGo cfg n (rest.drop (2 * count))
      if 2 * count ≤ rest.length ∧ 3 ≤ count then
        ((pairs (rest.take (2 * count))).map (world_to_screen cfg) :: tail.1, tail.2)
      else tail

/-- Record loop of `draw_polygons_bin`: the exterior ring is added only
when complete with at least three points, then the interior rings are
processed, then the next record. -/
noncomputable def binPolyGo (cfg : RenderCfg) : ℕ → List ℝ → List Subpath
  | 0, _ => []
  | n + 1, ec :: ic :: rest =>
      let ext_count := asUsize ec
      let int_ring_count := asUsize ic
      let extSub : List Subpath :=
        if 2 * ext_count ≤ rest.length ∧ 3 ≤ ext_count then
          [(pairs (rest.take (2 * ext_count))).map (world_to_screen cfg)]
        else []
      let inner := binPolyIntGo cfg int_ring_count (rest.drop (2 * ext_count))
      extSub ++ inner.1 ++ binPolyGo cfg n inner.2
  | _ + 1, _ => []

/-- The fill-path content built by `draw_polygons_bin` (each subpath is one
closed ring). -/
noncomputable def draw_polygons_bin_subpaths (cfg : RenderCfg) (data : List ℝ) : List Subpath :=
  match data with
  | [] => []
  | c :: rest => binPolyGo cfg (asUsize c) rest

/-- `MapRenderer::add_poly_to_path`: nothing is added for an exterior with
fewer than three points; otherwise the exterior ring and every interior
ring with at least three points are added as closed subpaths. -/
noncomputable def add_poly_to_path (cfg : RenderCfg) (poly : PolyFeature) : List Subpath :=
  if poly.exterior.length < 3 then []
  else
    poly.exterior.map (world_to_screen cfg) ::
      poly.interiors.filterMap (fun ring =>
        if ring.length < 3 then none else some (ring.map (world_to_screen cfg)))

/-! ## Hex colors (`utils.rs`)

`parse_hex_color` works on a `&str`.  Byte-length checks (`hex.len()`) and
the byte slices `&hex[0..2]`, `&hex[2..4]`, `&hex[4..6]` are modelled on the
UTF-8 byte list; a slice at a non-char-boundary index panics in Rust, which
the model reports as `none`. -/

/-- Value of one ASCII hex digit, as `char::to_digit(16)` accepts. -/
def hexDigitVal (b : ℕ) : Option ℕ :=
  if 48 ≤ b ∧ b ≤ 57 then some (b - 48)
  else if 97 ≤ b ∧ b ≤ 102 then some (b - 87)
  else if 65 ≤ b ∧ b ≤ 70 then some (b - 55)
  else none

/-- Accumulate base-16 digits; any non-digit byte fails the whole parse. -/
def hexDigitsVal : List ℕ → ℕ → Option ℕ
  | [], acc => some acc
  | b :: rest, acc =>
      match hexDigitVal b with
      | some d => hexDigitsVal rest (acc * 16 + d)
      | none => none

/-- `u8::from_str_radix(s, 16)` on a short byte slice: an optional single
leading sign, then at least one hex digit; a `-` sign only succeeds when
the magnitude is zero (anything else underflows the unsigned type). -/
def parseHexPair (bs : List ℕ) : Option ℕ :=
  match bs with
  | [] => none
  | b :: rest =>
      if b = 43 then
        match rest with
        | [] => none
        | _ => hexDigitsVal rest 0
      else if b = 45 then
        match rest with
        | [] => none
        | _ =>
            match hexDigitsVal rest 0 with
            | some 0 => some 0
            | _ => none
      else hexDigitsVal (b :: rest) 0

/-- `str::is_char_boundary`: index 0 and the length are boundaries; an
in-range index is a boundary when the byte there is not a UTF-8
continuation byte. -/
def isCharBoundary (bs : List ℕ) (i : ℕ) : Bool :=
  if i = 0 then true
  else
    match bs[i]? with
    | some b => decide (b < 128 ∨ 192 ≤ b)
    | none => decide (i = bs.length)

/-- `utils.rs` `parse_hex_color`: strips every leading `#`, returns opaque
black unless exactly 6 bytes remain, otherwise parses the three 2-byte
groups with invalid groups defaulting to 0 and alpha fixed at 255.
Slicing a 6-byte string at a non-char-boundary (possible with multi-byte
UTF-8 input) panics, reported as `none`. -/
def parse_hex_color (s : List ℕ) : Option (ℕ × ℕ × ℕ × ℕ) :=
  let hex := s.dropWhile (fun b => b == 35)
  if hex.length ≠ 6 then some (0, 0, 0, 255)
  else if isCharBoundary hex 2 && isCharBoundary hex 4 then
    some ((parseHexPair (hex.take 2)).getD 0,
          (parseHexPair ((hex.drop 2).take 2)).getD 0,
          (parseHexPair (hex.drop 4)).getD 0, 255)
  else none

/-! ## Pixel compositing (`renderer.rs` `draw_gradient(s)`, `draw_glyph_bitmap`)

Pixels are premultiplied RGBA bytes; `tiny_skia::Color` channels are
rationals in `[0, 1]`.  Rust casts: float to `u32`/`u8` truncates toward
zero saturating at the bounds (`toU32`, `satU8`); `u32 as u8` wraps
(`truncU8`).  `PremultipliedColorU8::from_rgba` rejects color components
above the alpha component. -/

/-- A premultiplied RGBA pixel (`PremultipliedColorU8`): r, g, b, a. -/
abbrev Pixel := ℕ × ℕ × ℕ × ℕ

/-- A `tiny_skia::Color`: r, g, b, a channels in `[0, 1]`. -/
abbrev ColorQ := ℚ × ℚ × ℚ × ℚ

/-- `Color::from_rgba8`: divide each byte by 255. -/
def colorOfRgba8 (c : ℕ × ℕ × ℕ × ℕ) : ColorQ :=
  ((c.1 : ℚ) / 255, (c.2.1 : ℚ) / 255, (c.2.2.1 : ℚ) / 255, (c.2.2.2 : ℚ) / 255)

/-- Rust `f as u32` for the nonnegative floats appearing here: the floor
(`q.num / q.den` is exactly `⌊q⌋`), saturating at 0. -/
def toU32 (q : ℚ) : ℕ := (q.num / (q.den : ℤ)).toNat

/-- Rust `f as u8` (saturating float-to-int cast). -/
def satU8 (q : ℚ) : ℕ := min 255 (toU32 q)

/-- Rust `n as u8` on a `u32` (wrapping integer cast). -/
def truncU8 (n : ℕ) : ℕ := n % 256

/-- `PremultipliedColorU8::from_rgba`: `none` when a color component
exceeds the alpha component. -/
def premulFromRgba (r g b a : ℕ) : Option Pixel :=
  if r ≤ a ∧ g ≤ a ∧ b ≤ a then some (r, g, b, a) else none

/-- The SrcOver scanline blend of `draw_gradient` (the `da != 0` branch):
`out = src + dst * (1 - src_alpha)` computed with the source's integer
rounding, then `from_rgba` (whose `unwrap` panics on `none`). -/
def srcOverBlend (base : ColorQ) (alpha : ℚ) (p : Pixel) : Option Pixel :=
  let src_a_inv := 1 - alpha
  let isrc_r := toU32 (base.1 * alpha * 255 + 1/2)
  let isrc_g := toU32 (base.2.1 * alpha * 255 + 1/2)
  let isrc_b := toU32 (base.2.2.1 * alpha * 255 + 1/2)
  premulFromRgba
    (min (isrc_r + toU32 ((p.1 : ℚ) * src_a_inv + 1/2)) 255)
    (min (isrc_g + toU32 ((p.2.1 : ℚ) * src_a_inv + 1/2)) 255)
    (min (isrc_b + toU32 ((p.2.2.1 : ℚ) * src_a_inv + 1/2)) 255)
    (satU8 ((alpha + ((p.2.2.2 : ℚ) / 255) * src_a_inv) * 255 + 1/2))

/-- Per-pixel body of `draw_gradient`'s scanline loop: a fully transparent
destination is overwritten with the premultiplied source directly,
otherwise the SrcOver blend is applied. -/
def gradient_blend_pixel (base : ColorQ) (alpha : ℚ) (p : Pixel) : Option Pixel :=
  if p.2.2.2 = 0 then
    premulFromRgba
      (truncU8 (toU32 (base.1 * alpha * 255 + 1/2)))
      (truncU8 (toU32 (base.2.1 * alpha * 255 + 1/2)))
      (truncU8 (toU32 (base.2.2.1 * alpha * 255 + 1/2)))
      (satU8 (alpha * 255 + 1/2))
  else srcOverBlend base alpha p

/-- Apply a fallible per-pixel operation to every pixel of a row. -/
def optionMapAll (f : Pixel → Option Pixel) : List Pixel → Option (List Pixel)
  | [] => some []
  | p :: rest =>
      match f p, optionMapAll f rest with
      | some q, some qs => some (q :: qs)
      | _, _ => none

/-- Per-row interpolation factor `t` of `draw_gradient` (the `u32`
subtractions are natural subtraction, as in the source). -/
def gradT (bottom : Bool) (y y0 y1 : ℕ) : ℚ :=
  if bottom then ((y - y0 : ℕ) : ℚ) / ((y1 - y0 : ℕ) : ℚ)
  else ((y1 - y : ℕ) : ℚ) / ((y1 - y0 : ℕ) : ℚ)

/-- Scanline loop of `draw_gradient` over all `h` rows of the flat pixel
buffer (rows outside `[y0, y1)` and rows whose interpolated alpha is `≤ 0`
are left untouched, as in the source's loop bounds and `continue`). -/
def gradGo (base : ColorQ) (w : ℕ) (bottom : Bool) (y0 y1 : ℕ) :
    ℕ → ℕ → List Pixel → Option (List Pixel)
  | 0, _, rest => some rest
  | n + 1, y, rest =>
      let row :=
        if y0 ≤ y ∧ y < y1 then
          let alpha := gradT bottom y y0 y1 * base.2.2.2
          if alpha ≤ 0 then some (rest.take w)
          else optionMapAll (gradient_blend_pixel base alpha) (rest.take w)
        else some (rest.take w)
      match row, gradGo base w bottom y0 y1 n (y + 1) (rest.drop w) with
      | some r, some tl => some (r ++ tl)
      | _, _ => none

/-- `MapRenderer::draw_gradient`: band rows are `[3h/4, h)` for the bottom
gradient and `[0, h/4)` for the top one. -/
def draw_gradient (w h : ℕ) (bottom : Bool) (base : ColorQ)
    (pixels : List Pixel) : Option (List Pixel) :=
  let y0 := if bottom then 3 * h / 4 else 0
  let y1 := if bottom then h else h / 4
  if y1 ≤ y0 then some pixels
  else gradGo base w bottom y0 y1 h 0 pixels

/-- `MapRenderer::draw_gradients`: parse the theme's gradient color, then
draw the bottom gradient followed by the top one. -/
def draw_gradients (w h : ℕ) (gradient_color : List ℕ)
    (pixels : List Pixel) : Option (List Pixel) :=
  match parse_hex_color gradient_color with
  | none => none
  | some c =>
      match draw_gradient w h true (colorOfRgba8 c) pixels with
      | none => none
      | some p1 => draw_gradient w h false (colorOfRgba8 c) p1

/-- The per-pixel effect of one `draw_gradient` pass on a pixel of row `y`:
rows outside `[y0, y1)` and rows with non-positive interpolated alpha are
untouched, the others get the per-pixel blend. -/
def gradRowFn (base : ColorQ) (bottom : Bool) (y0 y1 y : ℕ) (p : Pixel) : Option Pixel :=
  if y0 ≤ y ∧ y < y1 then
    if gradT bottom y y0 y1 * base.2.2.2 ≤ 0 then some p
    else gradient_blend_pixel base (gradT bottom y y0 y1 * base.2.2.2) p
  else some p

/-- The per-pixel effect the gradient pass is specified to have on row `y`:
SrcOver of the row's premultiplied gradient color inside the two bands,
identity elsewhere. -/
def gradPixelSpec (h : ℕ) (base : ColorQ) (y : ℕ) (p : Pixel) : Option Pixel :=
  if y < h / 4 then
    let alpha := gradT false y 0 (h / 4) * base.2.2.2
    if alpha ≤ 0 then some p else srcOverBlend base alpha p
  else if 3 * h / 4 ≤ y ∧ y < h then
    let alpha := gradT true y (3 * h / 4) h * base.2.2.2
    if alpha ≤ 0 then some p else srcOverBlend base alpha p
  else some p

/-- A premultiplied pixel is well-formed: components bounded by alpha,
alpha a byte. -/
def pixelValid (p : Pixel) : Prop :=
  p.1 ≤ p.2.2.2 ∧ p.2.1 ≤ p.2.2.2 ∧ p.2.2.1 ≤ p.2.2.2 ∧ p.2.2.2 ≤ 255

instance (p : Pixel) : Decidable (pixelValid p) := by
  unfold pixelValid
  infer_instance

/-- Per-pixel body of `draw_glyph_bitmap`: un-premultiplied source color
times coverage, SrcOver against the destination, written back only when
`from_rgba` accepts the rounded result. -/
def glyphBlend (color : ColorQ) (cov : ℕ) (dst : Pixel) : Pixel :=
  let alpha_f := ((cov : ℚ) / 255) * color.2.2.2
  let inv_sa := 1 - alpha_f
  let out_r := color.1 * alpha_f + ((dst.1 : ℚ) / 255) * inv_sa
  let out_g := color.2.1 * alpha_f + ((dst.2.1 : ℚ) / 255) * inv_sa
  let out_b := color.2.2.1 * alpha_f + ((dst.2.2.1 : ℚ) / 255) * inv_sa
  let out_a := alpha_f + ((dst.2.2.2 : ℚ) / 255) * inv_sa
  match premulFromRgba (satU8 (out_r * 255 + 1/2)) (satU8 (out_g * 255 + 1/2))
      (satU8 (out_b * 255 + 1/2)) (satU8 (out_a * 255 + 1/2)) with
  | some c => c
  | none => dst

/-- Pixel loop of `draw_glyph_bitmap` over the glyph coverage cells
`(dy, dx)`: reads `bitmap[dy * gw + dx]` (out of bounds panics: `none`),
skips zero coverage, clips `(x + dx, y + dy)` against the canvas, and
blends in-bounds pixels (`pixels[py * W + px]`; out of bounds panics). -/
def drawGlyphGo (bitmap : List ℕ) (gw : ℕ) (color : ColorQ) (x y : ℤ)
    (W H : ℕ) : List (ℕ × ℕ) → List Pixel → Option (List Pixel)
  | [], px => some px
  | d :: rest, px =>
      match bitmap[d.1 * gw + d.2]? with
      | none => none
      | some cov =>
          if cov = 0 then drawGlyphGo bitmap gw color x y W H rest px
          else
            let pxi : ℤ := x + d.2
            let pyi : ℤ := y + d.1
            if 0 ≤ pxi ∧ pxi < (W : ℤ) ∧ 0 ≤ pyi ∧ pyi < (H : ℤ) then
              let idx := pyi.toNat * W + pxi.toNat
              match px[idx]? with
              | none => none
              | some dst =>
                  drawGlyphGo bitmap gw color x y W H rest
                    (px.set idx (glyphBlend color cov dst))
            else drawGlyphGo bitmap gw color x y W H rest px

/-- `MapRenderer::draw_glyph_bitmap`: iterate the `gh × gw` coverage cells
in row-major order over the pixel buffer of a `W × H` pixmap. -/
def draw_glyph_bitmap (bitmap : List ℕ) (gw gh : ℕ) (x y : ℤ)
    (color : ColorQ) (W H : ℕ) (pixels : List Pixel) : Option (List Pixel) :=
  drawGlyphGo bitmap gw color x y W H
    ((List.range gh).flatMap (fun dy => (List.range gw).map (fun dx => (dy, dx)))) pixels

/-! Concrete instances used by witnesses and counterexamples. -/

/-- A small concrete renderer configuration. -/
noncomputable def cfg0 : RenderCfg := ⟨100, 100, ⟨-1, 1, -1, 1⟩⟩

/-- The byte string `000000`. -/
def bytesBlack : List ℕ := [48, 48, 48, 48, 48, 48]

/-- A concrete theme whose eleven colors are all `000000`. -/
def theme0 : Theme :=
  ⟨bytesBlack, bytesBlack, bytesBlack, bytesBlack, bytesBlack, bytesBlack,
   bytesBlack, bytesBlack, bytesBlack, bytesBlack, bytesBlack⟩

/-- What `draw_roads_bin_scaled` paints for bucket `t`: the bucket's path
content, the stroke color parsed from the theme entry of
`RoadType::from_u32(t)`, and the stroke width
`get_width_scaled(scale_factor)`. -/
noncomputable def draw_roads_bin_scaled_category (cfg : RenderCfg) (theme : Theme)
    (scale_factor : ℝ) (data : List ℝ) (t : ℕ) :
    List Subpath × Option (ℕ × ℕ × ℕ × ℕ) × ℝ :=
  (draw_roads_bin_subpaths cfg data t,
   parse_hex_color (roadThemeColor theme (RoadType.from_u32 t)),
   (RoadType.from_u32 t).get_width_scaled scale_factor)

/-- What `draw_roads_scaled` paints for the group of class `t`: the group's
path content, its stroke color and its stroke width. -/
noncomputable def draw_roads_scaled_category (cfg : RenderCfg) (theme : Theme)
    (scale_factor : ℝ) (roads : List Road) (t : RoadType) :
    List Subpath × Option (ℕ × ℕ × ℕ × ℕ) × ℝ :=
  (draw_roads_subpaths cfg roads t,
   parse_hex_color (roadThemeColor theme t),
   t.get_width_scaled scale_factor)

/-- Interior-ring reader following the spec's words for the truncation
contract: a record counts as fully parseable only if every declared
interior ring is present in full; otherwise the whole record is rejected. -/
noncomputable def specIntAll (proj : Point → Point) :
    ℕ → List ℝ → Option (List (List Point) × List ℝ)
  | 0, rest => some ([], rest)
  | _ + 1, [] => none
  | n + 1, cv :: rest =>
      let c := asUsize cv
      if 2 * c ≤ rest.length then
        (specIntAll proj n (rest.drop (2 * c))).map
          (fun pr => ((pairs (rest.take (2 * c))).map proj :: pr.1, pr.2))
      else none

/-- Polygon decoder following the spec's truncation sentence: stop at the
first record that is not fully parseable and return only the records
decoded in full before it. -/
noncomputable def specPolysGo (proj : Point → Point) : ℕ → List ℝ → List PolyFeature
  | 0, _ => []
  | n + 1, ec :: ic :: rest =>
      let e := asUsize ec
      let irc := asUsize ic
      if 2 * e ≤ rest.length then
        match specIntAll proj irc (rest.drop (2 * e)) with
        | some pr => ⟨(pairs (rest.take (2 * e))).map proj, pr.1⟩ :: specPolysGo proj n pr.2
        | none => []
      else []
  | _ + 1, _ => []

/-- The exactly-the-fully-parseable-features decode of a polygons buffer,
as the spec describes the truncation policy. -/
noncomputable def specParsePolys (data : List ℝ) : List PolyFeature :=
  match data with
  | [] => []
  | c :: rest => specPolysGo projPair (asUsize c) rest

/-! ## Theorems -/

theorem asUsize_natCast (n : ℕ) : asUsize (n : ℝ) = n := by
  simp [asUsize]

@[simp] theorem asUsize_zero : asUsize (0 : ℝ) = 0 := by
  simpa using asUsize_natCast 0

@[simp] theorem asUsize_one : asUsize (1 : ℝ) = 1 := by
  simpa using asUsize_natCast 1

@[simp] theorem asUsize_ofNat (n : ℕ) [n.AtLeastTwo] :
    asUsize (no_index (OfNat.ofNat n) : ℝ) = OfNat.ofNat n := by
  simp [asUsize]
  rfl

theorem projPair_zero : projPair ((0 : ℝ), (0 : ℝ)) = ((0 : ℝ), (0 : ℝ)) := by
  simp [projPair, project_point]

theorem roadType_from_to (t : RoadType) : RoadType.from_u32 t.to_u32 = t := by
  cases t <;> rfl

theorem flatPoints_length (coords : List Point) :
    (coords.flatMap (fun p => [p.1, p.2])).length = 2 * coords.length := by
  induction coords with
  | nil => simp
  | cons p ps ih =>
      rw [List.flatMap_cons, List.length_append, ih]
      simp only [List.length_cons, List.length_nil, List.length_cons]
      omega

theorem pairs_cons (x y : ℝ) (rest : List ℝ) :
    pairs (x :: y :: rest) = (x, y) :: pairs rest := rfl

theorem flatPoints_cons (p : Point) (ps : List Point) :
    (p :: ps).flatMap (fun p => [p.1, p.2]) =
      p.1 :: p.2 :: ps.flatMap (fun p => [p.1, p.2]) := rfl

theorem pairs_flatPoints (coords : List Point) :
    pairs (coords.flatMap (fun p => [p.1, p.2])) = coords := by
  induction coords with
  | nil => rfl
  | cons p ps ih =>
      rw [flatPoints_cons, pairs_cons, ih]

theorem take_flat_append (coords : List Point) (rest : List ℝ) :
    (coords.flatMap (fun p => [p.1, p.2]) ++ rest).take (2 * coords.length) =
      coords.flatMap (fun p => [p.1, p.2]) := by
  rw [← flatPoints_length]
  exact List.take_left _ _

theorem drop_flat_append (coords : List Point) (rest : List ℝ) :
    (coords.flatMap (fun p => [p.1, p.2]) ++ rest).drop (2 * coords.length) = rest := by
  rw [← flatPoints_length]
  exact List.drop_left _ _

/-- Decoding the roads body with any surplus fuel consumes exactly the
encoded records, leaving the decoder running on the remainder. -/
theorem parseRoadsGo_body (proj : Point → Point) (roads : List Road) (k : ℕ)
    (rest : List ℝ) :
    parseRoadsGo proj (roads.length + k) (roadsBody roads ++ rest) =
      roads.map (fun r => ⟨r.coords.map proj, r.road_type⟩) ++ parseRoadsGo proj k rest := by
  induction roads generalizing rest with
  | nil => simp [roadsBody]
  | cons r rs ih =>
      have e1 : roadsBody (r :: rs) ++ rest =
          ((r.road_type.to_u32 : ℕ) : ℝ) :: ((r.coords.length : ℕ) : ℝ) ::
            (r.coords.flatMap (fun p => [p.1, p.2]) ++ (roadsBody rs ++ rest)) := by
        simp [roadsBody]
      have e2 : (r :: rs).length + k = (rs.length + k) + 1 := by
        simp only [List.length_cons]
        omega
      rw [e1, e2]
      simp only [parseRoadsGo, asUsize_natCast]
      rw [if_pos (by rw [List.length_append, flatPoints_length]; omega)]
      rw [take_flat_append, drop_flat_append, pairs_flatPoints, roadType_from_to, ih]
      simp

/-- Decoding the encoded interior rings consumes them exactly. -/
theorem parseIntGo_rings (proj : Point → Point) (rings : List (List Point))
    (rest : List ℝ) :
    parseIntGo proj rings.length
      (rings.flatMap (fun ring => ((ring.length : ℕ) : ℝ) ::
        ring.flatMap (fun p => [p.1, p.2])) ++ rest) =
      (rings.map (fun ring => ring.map proj), rest) := by
  induction rings generalizing rest with
  | nil => simp [parseIntGo]
  | cons ring rs ih =>
      have e1 : (ring :: rs).flatMap (fun ring => ((ring.length : ℕ) : ℝ) ::
            ring.flatMap (fun p => [p.1, p.2])) ++ rest =
          ((ring.length : ℕ) : ℝ) :: (ring.flatMap (fun p => [p.1, p.2]) ++
            (rs.flatMap (fun ring => ((ring.length : ℕ) : ℝ) ::
              ring.flatMap (fun p => [p.1, p.2])) ++ rest)) := by
        simp
      rw [e1]
      show parseIntGo proj (rs.length + 1) _ = _
      simp only [parseIntGo, asUsize_natCast]
      rw [if_pos (by rw [List.length_append, flatPoints_length]; omega)]
      rw [take_flat_append, drop_flat_append, pairs_flatPoints, ih]
      simp

/-- Decoding the polygons body with any surplus fuel consumes exactly the
encoded records, leaving the decoder running on the remainder. -/
theorem parsePolysGo_body (proj : Point → Point) (polys : List PolyFeature) (k : ℕ)
    (rest : List ℝ) :
    parsePolysGo proj (polys.length + k) (polysBody polys ++ rest) =
      polys.map (fun q =>
        ⟨q.exterior.map proj, q.interiors.map (fun ring => ring.map proj)⟩)
        ++ parsePolysGo proj k rest := by
  induction polys generalizing rest with
  | nil => simp [polysBody]
  | cons q qs ih =>
      have e1 : polysBody (q :: qs) ++ rest =
          ((q.exterior.length : ℕ) : ℝ) :: ((q.interiors.length : ℕ) : ℝ) ::
            (q.exterior.flatMap (fun p => [p.1, p.2]) ++
              (q.interiors.flatMap (fun ring => ((ring.length : ℕ) : ℝ) ::
                ring.flatMap (fun p => [p.1, p.2])) ++ (polysBody qs ++ rest))) := by
        simp [polysBody]
      have e2 : (q :: qs).length + k = (qs.length + k) + 1 := by
        simp only [List.length_cons]
        omega
      rw [e1, e2]
      simp only [parsePolysGo, asUsize_natCast]
      rw [if_pos (by rw [List.length_append, flatPoints_length]; omega)]
      rw [take_flat_append, drop_flat_append, pairs_flatPoints, parseIntGo_rings, ih]
      simp

theorem parseRoadsGo_zero (proj : Point → Point) (l : List ℝ) :
    parseRoadsGo proj 0 l = [] := rfl

theorem parsePolysGo_zero (proj : Point → Point) (l : List ℝ) :
    parsePolysGo proj 0 l = [] := rfl

/-- Decoding an encoded roads collection projects each coordinate once. -/
theorem parse_encode_roads (roads : List Road) :
    parse_roads_bin (encodeRoads roads) =
      .ok (roads.map (fun r => ⟨r.coords.map projPair, r.road_type⟩)) := by
  show Except.ok (parseRoadsGo projPair (asUsize ((roads.length : ℕ) : ℝ))
    (roadsBody roads)) = _
  rw [asUsize_natCast]
  have h := parseRoadsGo_body projPair roads 0 []
  rw [Nat.add_zero, List.append_nil, parseRoadsGo_zero, List.append_nil] at h
  rw [h]

/-- Decoding an encoded polygons collection projects each coordinate once. -/
theorem parse_encode_polys (polys : List PolyFeature) :
    parse_polygons_bin (encodePolys polys) =
      .ok (polys.map (fun q =>
        ⟨q.exterior.map projPair, q.interiors.map (fun ring => ring.map projPair)⟩)) := by
  show Except.ok (parsePolysGo projPair (asUsize ((polys.length : ℕ) : ℝ))
    (polysBody polys)) = _
  rw [asUsize_natCast]
  have h := parsePolysGo_body projPair polys 0 []
  rw [Nat.add_zero, List.append_nil, parsePolysGo_zero, List.append_nil] at h
  rw [h]

/-- C2 (amended): decoding an encoded collection returns it with every
coordinate passed once through the Mercator projection; road types, point
counts and the exterior/interior ring structure are preserved exactly. -/
theorem c2_decode_encode_amended (roads : List Road) (polys : List PolyFeature) :
    parse_roads_bin (encodeRoads roads) =
      .ok (roads.map (fun r => ⟨r.coords.map projPair, r.road_type⟩)) ∧
    parse_polygons_bin (encodePolys polys) =
      .ok (polys.map (fun q =>
        ⟨q.exterior.map projPair, q.interiors.map (fun ring => ring.map projPair)⟩)) :=
  ⟨parse_encode_roads roads, parse_encode_polys polys⟩

/-- C2 counterexample: a one-road collection whose single coordinate is
`(90, 0)` does not survive the decode(encode(·)) roundtrip, because the
decoder projects the longitude 90 to `π/2 · 6378137` metres. -/
theorem c2_decode_encode_cex :
    parse_roads_bin (encodeRoads [⟨[((90 : ℝ), (0 : ℝ))], .Motorway⟩]) ≠
      .ok [⟨[((90 : ℝ), (0 : ℝ))], .Motorway⟩] := by
  rw [parse_encode_roads [⟨[((90 : ℝ), (0 : ℝ))], .Motorway⟩]]
  intro hc
  simp only [List.map_cons, List.map_nil, Except.ok.injEq, List.cons.injEq,
    Road.mk.injEq, and_true] at hc
  have hx : projPair ((90 : ℝ), (0 : ℝ)) = ((90 : ℝ), (0 : ℝ)) := hc
  have hx1 : (90 : ℝ) * (Real.pi / 180) * 6378137 = 90 := congrArg Prod.fst hx
  have hpi := Real.pi_gt_three
  nlinarith

/-- C3 (amended): both decoders always return `Ok` and never panic.  For
roads the claim holds exactly: a trailing record whose declared coordinates
exceed the remaining buffer (or whose header is incomplete) is dropped and
exactly the fully parseable records before it are returned.  For polygons a
record whose interior rings are truncated is still returned, carrying only
the rings parsed so far. -/
theorem c3_truncation_amended :
    (∀ (roads : List Road) (tvv cvv : ℝ) (extra : List ℝ),
        extra.length < 2 * asUsize cvv →
        parse_roads_bin ((((roads.length + 1 : ℕ)) : ℝ) ::
            (roadsBody roads ++ tvv :: cvv :: extra)) =
          .ok (roads.map (fun r => ⟨r.coords.map projPair, r.road_type⟩)))
    ∧ (∀ (roads : List Road) (tvv : ℝ),
        parse_roads_bin ((((roads.length + 1 : ℕ)) : ℝ) ::
            (roadsBody roads ++ [tvv])) =
          .ok (roads.map (fun r => ⟨r.coords.map projPair, r.road_type⟩)))
    ∧ (∀ data : List ℝ, ∃ l, parse_polygons_bin data = .ok l) := by
  refine ⟨?_, ?_, fun data => ⟨_, rfl⟩⟩
  · intro roads tvv cvv extra hlt
    show Except.ok (parseRoadsGo projPair
      (asUsize (((roads.length + 1 : ℕ)) : ℝ)) (roadsBody roads ++ tvv :: cvv :: extra)) = _
    rw [asUsize_natCast]
    rw [parseRoadsGo_body projPair roads 1 (tvv :: cvv :: extra)]
    simp only [parseRoadsGo]
    rw [if_neg (by omega)]
    simp
  · intro roads tvv
    show Except.ok (parseRoadsGo projPair
      (asUsize (((roads.length + 1 : ℕ)) : ℝ)) (roadsBody roads ++ [tvv])) = _
    rw [asUsize_natCast]
    rw [parseRoadsGo_body projPair roads 1 [tvv]]
    simp [parseRoadsGo]

/-- C3 witness: the spec's own example — a trailing record declaring ten
points with only four values present decodes to exactly the prior records
(here: none). -/
theorem c3_truncation_amended_witness :
    ([(0 : ℝ), 0, 0, 0] : List ℝ).length < 2 * asUsize (10 : ℝ) ∧
    parse_roads_bin ([((1 : ℕ) : ℝ)] ++ (3 : ℝ) :: (10 : ℝ) :: [(0 : ℝ), 0, 0, 0]) =
      .ok [] := by
  have h1 : ([(0 : ℝ), 0, 0, 0] : List ℝ).length < 2 * asUsize (10 : ℝ) := by
    simp
  refine ⟨h1, ?_⟩
  have h := c3_truncation_amended.1 [] (3 : ℝ) (10 : ℝ) [(0 : ℝ), 0, 0, 0] h1
  simpa [roadsBody] using h

/-- C3 counterexample: the buffer `[1, 3, 1, 0,0, 0,0, 0,0]` declares one
polygon with a 3-point exterior and one interior ring, but ends before the
ring.  The fully-parseable-features decode of the spec returns nothing,
while `parse_polygons_bin` returns the record with the missing ring
silently dropped — a partially-parsed record is included. -/
theorem c3_truncation_cex :
    parse_polygons_bin [(1 : ℝ), 3, 1, 0, 0, 0, 0, 0, 0] ≠
      .ok (specParsePolys [(1 : ℝ), 3, 1, 0, 0, 0, 0, 0, 0]) := by
  have hcode : parse_polygons_bin [(1 : ℝ), 3, 1, 0, 0, 0, 0, 0, 0] =
      .ok [⟨[((0 : ℝ), (0 : ℝ)), ((0 : ℝ), (0 : ℝ)), ((0 : ℝ), (0 : ℝ))], []⟩] := by
    simp [parse_polygons_bin, parsePolysListP, parsePolysGo, parseIntGo, pairs, projPair_zero]
    exact projPair_zero
  have hspec : specParsePolys [(1 : ℝ), 3, 1, 0, 0, 0, 0, 0, 0] = [] := by
    simp [specParsePolys, specPolysGo, specIntAll]
  rw [hcode, hspec]
  simp

theorem pairs_length : ∀ l : List ℝ, (pairs l).length = l.length / 2
  | [] => rfl
  | [x] => by
      rw [show pairs [x] = ([] : List Point) from rfl]
      simp
  | x :: y :: rest => by
      rw [pairs_cons, List.length_cons, pairs_length rest]
      simp only [List.length_cons]
      omega

theorem pairs_take_length (r : List ℝ) (count : ℕ) (h : 2 * count ≤ r.length) :
    (pairs (r.take (2 * count))).length = count := by
  rw [pairs_length, List.length_take]
  omega

theorem binRoadGo_nil (cfg : RenderCfg) : ∀ m, binRoadGo cfg m [] = []
  | 0 => rfl
  | _ + 1 => rfl

theorem from_u32_ge5 (m : ℕ) : RoadType.from_u32 (m + 5) = .Default := rfl

/-- With both discriminants in range for the comparison at hand (`tv < 6`,
and when `tv = 5` also `t < 6`), `from_u32` collisions force equal
discriminants. -/
theorem from_u32_eq_iff (t tv : ℕ) (htv : tv < 6) (ht : tv = 5 → t < 6) :
    RoadType.from_u32 t = RoadType.from_u32 tv ↔ t = tv := by
  constructor
  · intro he
    interval_cases tv <;>
      rcases t with _ | _ | _ | _ | _ | m <;>
        simp_all [from_u32_ge5, RoadType.from_u32] <;> omega
  · intro he
    rw [he]

theorem filterMap_bucket_cons (tv t : ℕ) (sp : Subpath)
    (l : List (ℕ × Subpath)) :
    ((t, sp) :: l).filterMap (fun p => if p.1 = tv then some p.2 else none) =
      if t = tv then sp :: l.filterMap (fun p => if p.1 = tv then some p.2 else none)
      else l.filterMap (fun p => if p.1 = tv then some p.2 else none) := by
  by_cases h : t = tv
  · simp [List.filterMap_cons, h]
  · simp [List.filterMap_cons, h]

theorem filterMap_group_cons (cfg : RenderCfg) (t : RoadType) (r : Road)
    (l : List Road) :
    ((r :: l).filterMap (fun r =>
        if r.road_type = t ∧ 2 ≤ r.coords.length then
          some (r.coords.map (world_to_screen cfg))
        else none)) =
      if r.road_type = t ∧ 2 ≤ r.coords.length then
        r.coords.map (world_to_screen cfg) :: l.filterMap (fun r =>
          if r.road_type = t ∧ 2 ≤ r.coords.length then
            some (r.coords.map (world_to_screen cfg))
          else none)
      else l.filterMap (fun r =>
        if r.road_type = t ∧ 2 ≤ r.coords.length then
          some (r.coords.map (world_to_screen cfg))
        else none) := by
  by_cases h : r.road_type = t ∧ 2 ≤ r.coords.length
  · simp [List.filterMap_cons, h]
  · simp [List.filterMap_cons, h]

/-- Bucket `tv` of the single-pass binary road loop holds exactly the
screen subpaths of the `from_u32 tv` group of the projection-free decode
(for the Default bucket, provided no record carries a type value ≥ 6). -/
theorem binRoadGo_eq_parse (cfg : RenderCfg) (tv : ℕ) (htv : tv < 6) :
    ∀ (n : ℕ) (rest : List ℝ),
      (tv = 5 → ∀ v ∈ binRoadTypeValsGo n rest, v < 6) →
      (binRoadGo cfg n rest).filterMap
          (fun p => if p.1 = tv then some p.2 else none) =
        (parseRoadsGo (fun p => p) n rest).filterMap (fun r =>
          if r.road_type = RoadType.from_u32 tv ∧ 2 ≤ r.coords.length then
            some (r.coords.map (world_to_screen cfg))
          else none) := by
  intro n
  induction n with
  | zero => intro rest _; rfl
  | succ n ih =>
      intro rest hdef
      rcases rest with _ | ⟨a, _ | ⟨b, r⟩⟩
      · rfl
      · rfl
      · by_cases hc : 2 * asUsize b ≤ r.length
        · have hvals : binRoadTypeValsGo (n + 1) (a :: b :: r) =
              asUsize a :: binRoadTypeValsGo n (r.drop (2 * asUsize b)) := by
            simp only [binRoadTypeValsGo]
            rw [if_pos hc]
          have hdef2 : tv = 5 → ∀ v ∈ binRoadTypeValsGo n (r.drop (2 * asUsize b)), v < 6 := by
            intro h5 v hv
            exact hdef h5 v (by rw [hvals]; exact List.mem_cons_of_mem _ hv)
          have hta : tv = 5 → asUsize a < 6 := by
            intro h5
            exact hdef h5 (asUsize a) (by rw [hvals]; exact List.mem_cons_self _ _)
          have hparse : parseRoadsGo (fun p => p) (n + 1) (a :: b :: r) =
              ⟨(pairs (r.take (2 * asUsize b))).map (fun p => p),
                RoadType.from_u32 (asUsize a)⟩ ::
                parseRoadsGo (fun p => p) n (r.drop (2 * asUsize b)) := by
            simp only [parseRoadsGo]
            rw [if_pos hc]
          have hbin : binRoadGo cfg (n + 1) (a :: b :: r) =
              (if asUsize a < 6 ∧ 2 * asUsize b ≤ r.length ∧ 2 ≤ asUsize b then
                (asUsize a, (pairs (r.take (2 * asUsize b))).map (world_to_screen cfg)) ::
                  binRoadGo cfg n (r.drop (2 * asUsize b))
              else binRoadGo cfg n (r.drop (2 * asUsize b))) := by
            simp only [binRoadGo]
          have hcount : ((pairs (r.take (2 * asUsize b))).map (fun p => p)).length =
              asUsize b := by
            rw [List.length_map]
            exact pairs_take_length r (asUsize b) hc
          rw [hparse, hbin, filterMap_group_cons]
          by_cases hat : asUsize a = tv
          · have hrt : RoadType.from_u32 (asUsize a) = RoadType.from_u32 tv := by rw [hat]
            by_cases h2 : 2 ≤ asUsize b
            · rw [if_pos ⟨by rw [hat]; exact htv, hc, h2⟩]
              rw [filterMap_bucket_cons, if_pos hat]
              rw [if_pos ⟨hrt, by rw [hcount]; exact h2⟩]
              rw [List.map_id', ih _ hdef2]
            · rw [if_neg (by intro hcontra; exact h2 hcontra.2.2)]
              rw [if_neg (by intro hcontra; exact h2 (hcount ▸ hcontra.2))]
              exact ih _ hdef2
          · have hrt : ¬ RoadType.from_u32 (asUsize a) = RoadType.from_u32 tv := by
              intro he
              exact hat ((from_u32_eq_iff (asUsize a) tv htv hta).mp he)
            rw [if_neg (show ¬(RoadType.from_u32 (asUsize a) = RoadType.from_u32 tv ∧
                2 ≤ ((pairs (r.take (2 * asUsize b))).map (fun p => p)).length) from
              fun hcontra => hrt hcontra.1)]
            by_cases hlt : asUsize a < 6 ∧ 2 * asUsize b ≤ r.length ∧ 2 ≤ asUsize b
            · rw [if_pos hlt, filterMap_bucket_cons, if_neg hat]
              exact ih _ hdef2
            · rw [if_neg hlt]
              exact ih _ hdef2
        · have hdrop : r.drop (2 * asUsize b) = [] :=
            List.drop_eq_nil_of_le (by omega)
          have hparse : parseRoadsGo (fun p => p) (n + 1) (a :: b :: r) = [] := by
            simp only [parseRoadsGo]
            rw [if_neg hc]
          have hbin : binRoadGo cfg (n + 1) (a :: b :: r) =
              binRoadGo cfg n (r.drop (2 * asUsize b)) := by
            simp only [binRoadGo]
            rw [if_neg (by intro hcontra; exact hc hcontra.2.1)]
          rw [hparse, hbin, hdrop, binRoadGo_nil]
          rfl

/-- C1 (amended): drawing a roads wire buffer directly with
`draw_roads_bin_scaled` produces, per category, the same screen subpaths,
the same stroke color and the same scaled stroke width as decoding the
buffer **without the projection step** and drawing the result with
`draw_roads_scaled` — unconditionally for the five named categories, and
for the Default category provided no record carries a raw type value ≥ 6
(such records are skipped by the direct path but decoded as Default).
Against the actual `parse_roads_bin`, which additionally projects every
coordinate, equivalence moreover needs each coordinate to be a fixed point
of the projection. -/
theorem c1_bin_draw_amended (cfg : RenderCfg) (theme : Theme) (scale : ℝ)
    (data : List ℝ) :
    (∀ tv : ℕ, tv < 5 →
      draw_roads_bin_scaled_category cfg theme scale data tv =
        draw_roads_scaled_category cfg theme scale (parseRoadsBinNoProj data)
          (RoadType.from_u32 tv))
    ∧ ((∀ v ∈ roadTypeValsOf data, v < 6) →
      draw_roads_bin_scaled_category cfg theme scale data 5 =
        draw_roads_scaled_category cfg theme scale (parseRoadsBinNoProj data)
          (RoadType.from_u32 5)) := by
  have key : ∀ tv : ℕ, tv < 6 → (tv = 5 → ∀ v ∈ roadTypeValsOf data, v < 6) →
      draw_roads_bin_subpaths cfg data tv =
        draw_roads_subpaths cfg (parseRoadsBinNoProj data) (RoadType.from_u32 tv) := by
    intro tv htv hdef
    cases data with
    | nil => rfl
    | cons c rest => exact binRoadGo_eq_parse cfg tv htv (asUsize c) rest hdef
  constructor
  · intro tv htv
    have h := key tv (by omega) (fun h5 => absurd h5 (by omega))
    unfold draw_roads_bin_scaled_category draw_roads_scaled_category
    rw [h]
  · intro hdef
    have h := key 5 (by omega) (fun _ => hdef)
    unfold draw_roads_bin_scaled_category draw_roads_scaled_category
    rw [h]

/-- C1 counterexample: on the buffer `[1, 7, 2, 0,0, 0,0]` (one road with
raw type value 7 and two points), decoding with `parse_roads_bin` then
drawing puts one subpath into the Default category, while
`draw_roads_bin_scaled` drawing the raw buffer directly skips the record
(`t < 6` fails) and leaves every category empty — the per-category paths
differ, so the two entry modes do not produce identical visual output. -/
theorem c1_bin_draw_cex :
    parse_roads_bin [(1 : ℝ), 7, 2, 0, 0, 0, 0] =
      .ok [⟨[((0 : ℝ), (0 : ℝ)), ((0 : ℝ), (0 : ℝ))], .Default⟩] ∧
    draw_roads_bin_subpaths cfg0 [(1 : ℝ), 7, 2, 0, 0, 0, 0] 5 = [] ∧
    draw_roads_subpaths cfg0 [⟨[((0 : ℝ), (0 : ℝ)), ((0 : ℝ), (0 : ℝ))], .Default⟩]
        .Default ≠ [] := by
  refine ⟨?_, ?_, ?_⟩
  · simp only [parse_roads_bin, Except.ok.injEq]
    simp [parseRoadsListP, parseRoadsGo, pairs, projPair_zero]
    constructor
    · exact projPair_zero
    · rfl
  · simp [draw_roads_bin_subpaths, binRoadGo]
  · simp [draw_roads_subpaths]

/-- C1 witness: a buffer with one well-formed type-0 record. -/
theorem c1_bin_draw_amended_witness :
    ((2 : ℕ) < 5 ∧
      draw_roads_bin_scaled_category cfg0 theme0 1 [(1 : ℝ), 0, 2, 0, 0, 0, 0] 2 =
        draw_roads_scaled_category cfg0 theme0 1
          (parseRoadsBinNoProj [(1 : ℝ), 0, 2, 0, 0, 0, 0]) (RoadType.from_u32 2))
    ∧ ((∀ v ∈ roadTypeValsOf [(1 : ℝ), 0, 2, 0, 0, 0, 0], v < 6) ∧
      draw_roads_bin_scaled_category cfg0 theme0 1 [(1 : ℝ), 0, 2, 0, 0, 0, 0] 5 =
        draw_roads_scaled_category cfg0 theme0 1
          (parseRoadsBinNoProj [(1 : ℝ), 0, 2, 0, 0, 0, 0]) (RoadType.from_u32 5)) := by
  have hv : ∀ v ∈ roadTypeValsOf [(1 : ℝ), 0, 2, 0, 0, 0, 0], v < 6 := by
    simp [roadTypeValsOf, binRoadTypeValsGo]
  exact ⟨⟨by norm_num,
      (c1_bin_draw_amended cfg0 theme0 1 [(1 : ℝ), 0, 2, 0, 0, 0, 0]).1 2 (by norm_num)⟩,
    ⟨hv, (c1_bin_draw_amended cfg0 theme0 1 [(1 : ℝ), 0, 2, 0, 0, 0, 0]).2 hv⟩⟩

theorem draw_roads_subpaths_eq (cfg : RenderCfg) (roads : List Road) (t : RoadType) :
    draw_roads_subpaths cfg roads t = roads.filterMap (fun r =>
      if r.road_type = t ∧ 2 ≤ r.coords.length then
        some (r.coords.map (world_to_screen cfg))
      else none) := rfl

theorem binRoadGo_snd_len (cfg : RenderCfg) :
    ∀ (n : ℕ) (rest : List ℝ) (p : ℕ × Subpath),
      p ∈ binRoadGo cfg n rest → 2 ≤ p.2.length := by
  intro n
  induction n with
  | zero => intro rest p hp; cases hp
  | succ n ih =>
      intro rest p hp
      rcases rest with _ | ⟨a, _ | ⟨b, r⟩⟩
      · cases hp
      · cases hp
      · simp only [binRoadGo] at hp
        by_cases hcond : asUsize a < 6 ∧ 2 * asUsize b ≤ r.length ∧ 2 ≤ asUsize b
        · rw [if_pos hcond] at hp
          rcases List.mem_cons.mp hp with hp | hp
          · rw [hp]
            simp only [List.length_map]
            rw [pairs_take_length r (asUsize b) hcond.2.1]
            exact hcond.2.2
          · exact ih _ p hp
        · rw [if_neg hcond] at hp
          exact ih _ p hp

theorem binPolyIntGo_len (cfg : RenderCfg) :
    ∀ (n : ℕ) (rest : List ℝ) (sub : Subpath),
      sub ∈ (binPolyIntGo cfg n rest).1 → 3 ≤ sub.length := by
  intro n
  induction n with
  | zero => intro rest sub hs; cases hs
  | succ n ih =>
      intro rest sub hs
      rcases rest with _ | ⟨cv, r⟩
      · cases hs
      · simp only [binPolyIntGo] at hs
        by_cases hcond : 2 * asUsize cv ≤ r.length ∧ 3 ≤ asUsize cv
        · rw [if_pos hcond] at hs
          rcases List.mem_cons.mp hs with hs | hs
          · rw [hs]
            simp only [List.length_map]
            rw [pairs_take_length r (asUsize cv) hcond.1]
            exact hcond.2
          · exact ih _ sub hs
        · rw [if_neg hcond] at hs
          exact ih _ sub hs

theorem binPolyGo_len (cfg : RenderCfg) :
    ∀ (n : ℕ) (rest : List ℝ) (sub : Subpath),
      sub ∈ binPolyGo cfg n rest → 3 ≤ sub.length := by
  intro n
  induction n with
  | zero => intro rest sub hs; cases hs
  | succ n ih =>
      intro rest sub hs
      rcases rest with _ | ⟨ec, _ | ⟨ic, r⟩⟩
      · cases hs
      · cases hs
      · simp only [binPolyGo, List.mem_append] at hs
        rcases hs with (hs | hs) | hs
        · by_cases hcond : 2 * asUsize ec ≤ r.length ∧ 3 ≤ asUsize ec
          · rw [if_pos hcond] at hs
            rcases List.mem_singleton.mp hs with rfl
            simp only [List.length_map]
            rw [pairs_take_length r (asUsize ec) hcond.1]
            exact hcond.2
          · rw [if_neg hcond] at hs
            cases hs
        · exact binPolyIntGo_len cfg _ _ sub hs
        · exact ih _ sub hs

/-- C8: degenerate inputs are silently skipped, never errored: a road with
fewer than two coordinates contributes no subpath in `draw_roads` /
`draw_roads_scaled` (removing such roads changes nothing, and every built
subpath has ≥ 2 points), every subpath built by `draw_roads_bin` /
`draw_roads_bin_scaled` has ≥ 2 points, a ring with fewer than three
points is omitted by `add_poly_to_path` (removing such interior rings
changes nothing, a short exterior drops the feature, every subpath has ≥ 3
points), and every ring subpath built by `draw_polygons_bin` has ≥ 3
points; all these operations are total. -/
theorem c8_degenerate_skipped :
    (∀ (cfg : RenderCfg) (roads : List Road) (t : RoadType),
      draw_roads_subpaths cfg (roads.filter (fun r => 2 ≤ r.coords.length)) t =
        draw_roads_subpaths cfg roads t)
    ∧ (∀ (cfg : RenderCfg) (roads : List Road) (t : RoadType),
        ∀ sub ∈ draw_roads_subpaths cfg roads t, 2 ≤ sub.length)
    ∧ (∀ (cfg : RenderCfg) (data : List ℝ) (t : ℕ),
        ∀ sub ∈ draw_roads_bin_subpaths cfg data t, 2 ≤ sub.length)
    ∧ (∀ (cfg : RenderCfg) (poly : PolyFeature),
        add_poly_to_path cfg
          ⟨poly.exterior, poly.interiors.filter (fun ring => 3 ≤ ring.length)⟩ =
          add_poly_to_path cfg poly)
    ∧ (∀ (cfg : RenderCfg) (poly : PolyFeature),
        poly.exterior.length < 3 → add_poly_to_path cfg poly = [])
    ∧ (∀ (cfg : RenderCfg) (poly : PolyFeature),
        ∀ sub ∈ add_poly_to_path cfg poly, 3 ≤ sub.length)
    ∧ (∀ (cfg : RenderCfg) (data : List ℝ),
        ∀ sub ∈ draw_polygons_bin_subpaths cfg data, 3 ≤ sub.length) := by
  refine ⟨?_, ?_, ?_, ?_, ?_, ?_, ?_⟩
  · intro cfg roads t
    induction roads with
    | nil => rfl
    | cons r rs ih =>
        rw [List.filter_cons]
        by_cases h2 : 2 ≤ r.coords.length
        · rw [if_pos (by simpa using h2)]
          rw [draw_roads_subpaths_eq, draw_roads_subpaths_eq,
            filterMap_group_cons, filterMap_group_cons]
          rw [draw_roads_subpaths_eq, draw_roads_subpaths_eq] at ih
          by_cases hrt : r.road_type = t ∧ 2 ≤ r.coords.length
          · rw [if_pos hrt, if_pos hrt, ih]
          · rw [if_neg hrt, if_neg hrt, ih]
        · rw [if_neg (by simpa using h2)]
          rw [draw_roads_subpaths_eq, draw_roads_subpaths_eq, filterMap_group_cons]
          rw [if_neg (fun hc => h2 hc.2)]
          rw [draw_roads_subpaths_eq, draw_roads_subpaths_eq] at ih
          exact ih
  · intro cfg roads t sub hsub
    rw [draw_roads_subpaths_eq] at hsub
    obtain ⟨r, _, hsome⟩ := List.mem_filterMap.mp hsub
    by_cases hc : r.road_type = t ∧ 2 ≤ r.coords.length
    · rw [if_pos hc] at hsome
      injection hsome with hsome
      rw [← hsome, List.length_map]
      exact hc.2
    · rw [if_neg hc] at hsome
      cases hsome
  · intro cfg data t sub hsub
    cases data with
    | nil => cases hsub
    | cons c rest =>
        obtain ⟨p, hp, hsome⟩ := List.mem_filterMap.mp hsub
        by_cases h1 : p.1 = t
        · rw [if_pos h1] at hsome
          injection hsome with hsome
          rw [← hsome]
          exact binRoadGo_snd_len cfg _ _ p hp
        · rw [if_neg h1] at hsome
          cases hsome
  · intro cfg poly
    by_cases hext : poly.exterior.length < 3
    · simp only [add_poly_to_path]
      rw [if_pos hext, if_pos hext]
    · simp only [add_poly_to_path]
      rw [if_neg hext, if_neg hext]
      congr 1
      induction poly.interiors with
      | nil => rfl
      | cons ring rs ih =>
          rw [List.filter_cons]
          by_cases h3 : 3 ≤ ring.length
          · rw [if_pos (by simpa using h3)]
            rw [List.filterMap_cons, List.filterMap_cons]
            rw [ih]
          · rw [if_neg (by simpa using h3)]
            rw [List.filterMap_cons]
            rw [if_pos (show ring.length < 3 by omega)]
            exact ih
  · intro cfg poly hext
    simp only [add_poly_to_path]
    rw [if_pos hext]
  · intro cfg poly sub hsub
    simp only [add_poly_to_path] at hsub
    by_cases hext : poly.exterior.length < 3
    · rw [if_pos hext] at hsub
      cases hsub
    · rw [if_neg hext] at hsub
      rcases List.mem_cons.mp hsub with hs | hs
      · rw [hs, List.length_map]
        omega
      · obtain ⟨ring, _, hsome⟩ := List.mem_filterMap.mp hs
        by_cases h3 : ring.length < 3
        · rw [if_pos h3] at hsome
          cases hsome
        · rw [if_neg h3] at hsome
          injection hsome with hsome
          rw [← hsome, List.length_map]
          omega
  · intro cfg data sub hsub
    cases data with
    | nil => cases hsub
    | cons c rest => exact binPolyGo_len cfg _ _ sub hsub

/-- C8 witness: a two-point Motorway road produces a two-point subpath. -/
theorem c8_degenerate_skipped_witness :
    [world_to_screen cfg0 ((0 : ℝ), (0 : ℝ)), world_to_screen cfg0 ((1 : ℝ), (1 : ℝ))] ∈
      draw_roads_subpaths cfg0
        [⟨[((0 : ℝ), (0 : ℝ)), ((1 : ℝ), (1 : ℝ))], .Motorway⟩] .Motorway ∧
    2 ≤ ([world_to_screen cfg0 ((0 : ℝ), (0 : ℝ)),
      world_to_screen cfg0 ((1 : ℝ), (1 : ℝ))] : List Point).length := by
  have hmem : [world_to_screen cfg0 ((0 : ℝ), (0 : ℝ)),
      world_to_screen cfg0 ((1 : ℝ), (1 : ℝ))] ∈
      draw_roads_subpaths cfg0
        [⟨[((0 : ℝ), (0 : ℝ)), ((1 : ℝ), (1 : ℝ))], .Motorway⟩] .Motorway := by
    rw [draw_roads_subpaths_eq]
    simp
  exact ⟨hmem, c8_degenerate_skipped.2.1 cfg0
    [⟨[((0 : ℝ), (0 : ℝ)), ((1 : ℝ), (1 : ℝ))], .Motorway⟩] .Motorway _ hmem⟩

/-- C10: `RoadType::from_u32` is total: 0..4 map to Motorway, Primary,
Secondary, Tertiary, Residential, every value ≥ 5 maps to Default, and it
inverts `to_u32` on every variant, so decoding never fails on an unknown
road-type code. -/
theorem c10_from_u32_total :
    (∀ t : RoadType, RoadType.from_u32 t.to_u32 = t)
    ∧ (∀ n : ℕ, 5 ≤ n → RoadType.from_u32 n = .Default)
    ∧ RoadType.from_u32 0 = .Motorway ∧ RoadType.from_u32 1 = .Primary
    ∧ RoadType.from_u32 2 = .Secondary ∧ RoadType.from_u32 3 = .Tertiary
    ∧ RoadType.from_u32 4 = .Residential := by
  refine ⟨?_, ?_, rfl, rfl, rfl, rfl, rfl⟩
  · intro t
    cases t <;> rfl
  · intro n hn
    obtain ⟨k, rfl⟩ : ∃ k, n = k + 5 := ⟨n - 5, by omega⟩
    rfl

/-- C10 witness: the out-of-range discriminant 7 decodes to Default. -/
theorem c10_from_u32_total_witness :
    5 ≤ 7 ∧ RoadType.from_u32 7 = .Default :=
  ⟨by decide, c10_from_u32_total.2.1 7 (by decide)⟩

/-- C5: `calculate_road_width_scale h s` equals `h / 4800` for every `h`
and `s`, hence is independent of the frontend scale; it is 1 at the
reference height 4800, and `Motorway.get_width_scaled 1 = 1.2`. -/
theorem c5_road_width_scale :
    (∀ hgt s : ℝ, calculate_road_width_scale hgt s = hgt / 4800)
    ∧ (∀ hgt s s2 : ℝ,
        calculate_road_width_scale hgt s = calculate_road_width_scale hgt s2)
    ∧ (∀ s : ℝ, calculate_road_width_scale 4800 s = 1)
    ∧ RoadType.Motorway.get_width_scaled 1 = 1.2 := by
  refine ⟨fun hgt s => rfl, fun hgt s s2 => rfl, fun s => ?_, ?_⟩
  · norm_num [calculate_road_width_scale]
  · norm_num [RoadType.get_width_scaled]

/-- C4: for positive radius and canvas sides, `calculate_bounds` yields a
box with positive width and height whose aspect ratio is exactly
`width / height`, whose half-extents are both at least the radius with the
smaller one exactly the radius, centered on the projected center point. -/
theorem c4_calculate_bounds (lat lon radius : ℝ) (w h : ℕ)
    (hr : 0 < radius) (hw : 0 < w) (hh : 0 < h) :
    0 < (calculate_bounds lat lon radius w h).width ∧
    0 < (calculate_bounds lat lon radius w h).height ∧
    (calculate_bounds lat lon radius w h).width /
        (calculate_bounds lat lon radius w h).height = (w : ℝ) / (h : ℝ) ∧
    radius ≤ (calculate_bounds lat lon radius w h).width / 2 ∧
    radius ≤ (calculate_bounds lat lon radius w h).height / 2 ∧
    min ((calculate_bounds lat lon radius w h).width / 2)
        ((calculate_bounds lat lon radius w h).height / 2) = radius ∧
    ((calculate_bounds lat lon radius w h).min_x +
        (calculate_bounds lat lon radius w h).max_x) / 2 = (project_point lon lat).1 ∧
    ((calculate_bounds lat lon radius w h).min_y +
        (calculate_bounds lat lon radius w h).max_y) / 2 = (project_point lon lat).2 := by
  have hwR : (0 : ℝ) < (w : ℝ) := by exact_mod_cast hw
  have hhR : (0 : ℝ) < (h : ℝ) := by exact_mod_cast hh
  have ha : 0 < (w : ℝ) / (h : ℝ) := div_pos hwR hhR
  simp only [calculate_bounds, BoundingBox.width, BoundingBox.height]
  by_cases h1 : 1 < (w : ℝ) / (h : ℝ)
  · rw [if_pos h1]
    have e1 : (project_point lon lat).1 + radius * ((w : ℝ) / (h : ℝ)) -
        ((project_point lon lat).1 - radius * ((w : ℝ) / (h : ℝ))) =
        2 * (radius * ((w : ℝ) / (h : ℝ)))  := by ring
    have e2 : (project_point lon lat).2 + radius -
        ((project_point lon lat).2 - radius) = 2 * radius := by ring
    simp only [e1, e2]
    have hra : radius ≤ radius * ((w : ℝ) / (h : ℝ)) := by nlinarith
    have hrne : radius ≠ 0 := ne_of_gt hr
    have hhne : (h : ℝ) ≠ 0 := ne_of_gt hhR
    refine ⟨by nlinarith, by nlinarith, ?_, by nlinarith, by nlinarith, ?_, by ring, by ring⟩
    · field_simp
      ring
    · have m1 : 2 * (radius * ((w : ℝ) / (h : ℝ))) / 2 = radius * ((w : ℝ) / (h : ℝ)) := by ring
      have m2 : 2 * radius / 2 = radius := by ring
      rw [m1, m2]
      exact min_eq_right hra
  · rw [if_neg h1]
    push_neg at h1
    have e1 : (project_point lon lat).1 + radius -
        ((project_point lon lat).1 - radius) = 2 * radius := by ring
    have e2 : (project_point lon lat).2 + radius / ((w : ℝ) / (h : ℝ)) -
        ((project_point lon lat).2 - radius / ((w : ℝ) / (h : ℝ))) =
        2 * (radius / ((w : ℝ) / (h : ℝ))) := by ring
    simp only [e1, e2]
    have hra : radius ≤ radius / ((w : ℝ) / (h : ℝ)) := by
      rw [le_div_iff₀ ha]
      nlinarith
    have hpos : 0 < radius / ((w : ℝ) / (h : ℝ)) := div_pos hr ha
    have hrne : radius ≠ 0 := ne_of_gt hr
    have hhne : (h : ℝ) ≠ 0 := ne_of_gt hhR
    have hwne : (w : ℝ) ≠ 0 := ne_of_gt hwR
    refine ⟨by nlinarith, by nlinarith, ?_, by nlinarith, by nlinarith, ?_, by ring, by ring⟩
    · field_simp
      ring
    · have m1 : 2 * radius / 2 = radius := by ring
      have m2 : 2 * (radius / ((w : ℝ) / (h : ℝ))) / 2 = radius / ((w : ℝ) / (h : ℝ)) := by
        ring
      rw [m1, m2]
      exact min_eq_left hra

/-- C4 witness: radius 1 on a 2 × 1 canvas. -/
theorem c4_calculate_bounds_witness :
    (0 : ℝ) < 1 ∧ 0 < 2 ∧ 0 < 1 ∧
      0 < (calculate_bounds 0 0 1 2 1).width :=
  ⟨by norm_num, by norm_num, by norm_num,
    (c4_calculate_bounds 0 0 1 2 1 (by norm_num) (by norm_num) (by norm_num)).1⟩

/-- C9 counterexample: the claim reads `parse_hex_color` as stripping one
leading `#`, under which `##ff0000` (8 bytes, 7 after one strip) would
yield opaque black; the code strips every leading `#` and returns opaque
red instead. -/
theorem c9_parse_hex_cex :
    parse_hex_color [35, 35, 102, 102, 48, 48, 48, 48] = some (255, 0, 0, 255) ∧
    ((255, 0, 0, 255) : ℕ × ℕ × ℕ × ℕ) ≠ (0, 0, 0, 255) := by
  constructor
  · decide
  · decide

/-- C9 (amended): `parse_hex_color` strips every leading `#`; whenever it
returns a color its alpha is 255; a remainder whose byte length is not 6
yields opaque black; a 6-byte remainder whose positions 2 and 4 are not
both char boundaries panics (multi-byte UTF-8 input); otherwise each
invalid 2-byte hex group parses as 0 for its channel. -/
theorem c9_parse_hex_amended :
    (∀ (s : List ℕ) (r g b a : ℕ),
        parse_hex_color s = some (r, g, b, a) → a = 255)
    ∧ (∀ s : List ℕ, (s.dropWhile (fun b => b == 35)).length ≠ 6 →
        parse_hex_color s = some (0, 0, 0, 255))
    ∧ (∀ s : List ℕ, (s.dropWhile (fun b => b == 35)).length = 6 →
        (isCharBoundary (s.dropWhile (fun b => b == 35)) 2 = false ∨
          isCharBoundary (s.dropWhile (fun b => b == 35)) 4 = false) →
        parse_hex_color s = none)
    ∧ (∀ s : List ℕ, (s.dropWhile (fun b => b == 35)).length = 6 →
        isCharBoundary (s.dropWhile (fun b => b == 35)) 2 = true →
        isCharBoundary (s.dropWhile (fun b => b == 35)) 4 = true →
        parseHexPair ((s.dropWhile (fun b => b == 35)).take 2) = none →
        parse_hex_color s = some (0,
          (parseHexPair (((s.dropWhile (fun b => b == 35)).drop 2).take 2)).getD 0,
          (parseHexPair ((s.dropWhile (fun b => b == 35)).drop 4)).getD 0, 255)) := by
  refine ⟨?_, ?_, ?_, ?_⟩
  · intro s r g b a hsome
    simp only [parse_hex_color] at hsome
    split_ifs at hsome with h1 h2
    · simp only [Option.some.injEq, Prod.mk.injEq] at hsome
      exact hsome.2.2.2.symm
    · simp only [Option.some.injEq, Prod.mk.injEq] at hsome
      exact hsome.2.2.2.symm
  · intro s hlen
    simp only [parse_hex_color]
    rw [if_pos hlen]
  · intro s hlen hb
    have hcond : ¬ (isCharBoundary (s.dropWhile (fun b => b == 35)) 2 &&
        isCharBoundary (s.dropWhile (fun b => b == 35)) 4) = true := by
      rcases hb with hb | hb
      · simp [hb]
      · simp [hb]
    simp only [parse_hex_color]
    rw [if_neg (by simp [hlen])]
    rw [if_neg hcond]
  · intro s hlen hb2 hb4 hnone
    simp only [parse_hex_color]
    rw [if_neg (by simp [hlen])]
    rw [if_pos (by simp [hb2, hb4])]
    rw [hnone]
    rfl

/-- C9 witness: `zz0000` is 6 ASCII bytes with an invalid red group, which
parses as red channel 0. -/
theorem c9_parse_hex_amended_witness :
    (([122, 122, 48, 48, 48, 48] : List ℕ).dropWhile (fun b => b == 35)).length = 6 ∧
    parseHexPair ((([122, 122, 48, 48, 48, 48] : List ℕ).dropWhile
      (fun b => b == 35)).take 2) = none ∧
    parse_hex_color [122, 122, 48, 48, 48, 48] = some (0,
      (parseHexPair (((([122, 122, 48, 48, 48, 48] : List ℕ).dropWhile
        (fun b => b == 35)).drop 2).take 2)).getD 0,
      (parseHexPair ((([122, 122, 48, 48, 48, 48] : List ℕ).dropWhile
        (fun b => b == 35)).drop 4)).getD 0, 255) :=
  ⟨by decide, by decide,
    c9_parse_hex_amended.2.2.2 [122, 122, 48, 48, 48, 48]
      (by decide) (by decide) (by decide) (by decide)⟩

theorem glyph_pairs_bound (gw gh : ℕ) :
    ∀ d ∈ (List.range gh).flatMap (fun dy => (List.range gw).map (fun dx => (dy, dx))),
      d.1 < gh ∧ d.2 < gw := by
  intro d hd
  simp only [List.mem_flatMap, List.mem_map, List.mem_range] at hd
  obtain ⟨dy, hdy, dx, hdx, rfl⟩ := hd
  exact ⟨hdy, hdx⟩

theorem twoDim_index_lt (px py W H : ℕ) (hx : px < W) (hy : py < H) :
    py * W + px < W * H := by
  have h1 : py * W + px < (py + 1) * W := by
    rw [Nat.succ_mul]
    omega
  have h2 : (py + 1) * W ≤ H * W := Nat.mul_le_mul_right W (by omega)
  rw [Nat.mul_comm W H]
  omega

theorem drawGlyphGo_some (bitmap : List ℕ) (gw : ℕ) (color : ColorQ) (x y : ℤ)
    (W H : ℕ) :
    ∀ (l : List (ℕ × ℕ)) (pixels : List Pixel),
      (∀ d ∈ l, d.1 * gw + d.2 < bitmap.length) →
      pixels.length = W * H →
      ∃ out, drawGlyphGo bitmap gw color x y W H l pixels = some out ∧
        out.length = W * H := by
  intro l
  induction l with
  | nil => intro pixels _ hlen; exact ⟨pixels, rfl, hlen⟩
  | cons d rest ih =>
      intro pixels hb hlen
      have hbit : d.1 * gw + d.2 < bitmap.length := hb d (List.mem_cons_self _ _)
      obtain ⟨bv, hcov⟩ : ∃ bv, bitmap[d.1 * gw + d.2]? = some bv :=
        ⟨_, List.getElem?_eq_getElem hbit⟩
      simp only [drawGlyphGo, hcov]
      by_cases hz : bv = 0
      · rw [if_pos hz]
        exact ih pixels (fun e he => hb e (List.mem_cons_of_mem _ he)) hlen
      · rw [if_neg hz]
        by_cases hin : 0 ≤ x + (d.2 : ℤ) ∧ x + (d.2 : ℤ) < (W : ℤ) ∧
            0 ≤ y + (d.1 : ℤ) ∧ y + (d.1 : ℤ) < (H : ℤ)
        · rw [if_pos hin]
          have hxw : (x + (d.2 : ℤ)).toNat < W := by omega
          have hyh : (y + (d.1 : ℤ)).toNat < H := by omega
          have hidx : (y + (d.1 : ℤ)).toNat * W + (x + (d.2 : ℤ)).toNat < pixels.length := by
            rw [hlen]
            exact twoDim_index_lt _ _ W H hxw hyh
          obtain ⟨pv, hdst⟩ : ∃ pv,
              pixels[(y + (d.1 : ℤ)).toNat * W + (x + (d.2 : ℤ)).toNat]? = some pv :=
            ⟨_, List.getElem?_eq_getElem hidx⟩
          simp only [hdst]
          exact ih _ (fun e he => hb e (List.mem_cons_of_mem _ he))
            (by rw [List.length_set]; exact hlen)
        · rw [if_neg hin]
          exact ih pixels (fun e he => hb e (List.mem_cons_of_mem _ he)) hlen

/-- C7: `draw_glyph_bitmap` is memory safe for every coverage bitmap of the
stated size and every placement offset, including negative offsets and
offsets beyond the canvas: all bitmap reads and all pixel reads and writes
are in bounds (the model reports any out-of-bounds access as `none`), it
never panics, and the pixel buffer keeps its `W * H` length. -/
theorem c7_glyph_bitmap_safe (bitmap : List ℕ) (gw gh : ℕ) (x y : ℤ)
    (color : ColorQ) (W H : ℕ) (pixels : List Pixel)
    (hbm : gw * gh ≤ bitmap.length) (hlen : pixels.length = W * H) :
    ∃ out, draw_glyph_bitmap bitmap gw gh x y color W H pixels = some out ∧
      out.length = W * H := by
  apply drawGlyphGo_some
  · intro d hd
    obtain ⟨h1, h2⟩ := glyph_pairs_bound gw gh d hd
    have := twoDim_index_lt d.2 d.1 gw gh h2 h1
    omega
  · exact hlen

/-- C7 witness: a 1×1 glyph placed at the negative offset `(-1, 0)` on a
1×1 pixmap completes without touching anything out of bounds. -/
theorem c7_glyph_bitmap_safe_witness :
    (1 : ℕ) * 1 ≤ ([255] : List ℕ).length ∧
    ([((0 : ℕ), (0 : ℕ), (0 : ℕ), (0 : ℕ))] : List Pixel).length = 1 * 1 ∧
    ∃ out, draw_glyph_bitmap [255] 1 1 (-1) 0 ((1 : ℚ), (1 : ℚ), (1 : ℚ), (1 : ℚ)) 1 1
        [((0 : ℕ), (0 : ℕ), (0 : ℕ), (0 : ℕ))] = some out ∧ out.length = 1 * 1 :=
  ⟨by decide, by decide,
    c7_glyph_bitmap_safe [255] 1 1 (-1) 0 ((1 : ℚ), (1 : ℚ), (1 : ℚ), (1 : ℚ)) 1 1
      [((0 : ℕ), (0 : ℕ), (0 : ℕ), (0 : ℕ))] (by decide) (by decide)⟩

theorem optionMapAll_length (f : Pixel → Option Pixel) :
    ∀ (l out : List Pixel), optionMapAll f l = some out → out.length = l.length := by
  intro l
  induction l with
  | nil =>
      intro out h
      cases h
      rfl
  | cons p rest ih =>
      intro out h
      simp only [optionMapAll] at h
      cases hf : f p with
      | none => rw [hf] at h; cases h
      | some q =>
          rw [hf] at h
          cases hr : optionMapAll f rest with
          | none => rw [hr] at h; cases h
          | some qs =>
              rw [hr] at h
              cases h
              simp [ih qs hr]

theorem optionMapAll_get (f : Pixel → Option Pixel) :
    ∀ (l out : List Pixel), optionMapAll f l = some out →
      ∀ i, i < l.length → ∃ p, l[i]? = some p ∧ out[i]? = f p := by
  intro l
  induction l with
  | nil => intro out _ i hi; cases hi
  | cons p rest ih =>
      intro out h i hi
      simp only [optionMapAll] at h
      cases hf : f p with
      | none => rw [hf] at h; cases h
      | some q =>
          rw [hf] at h
          cases hr : optionMapAll f rest with
          | none => rw [hr] at h; cases h
          | some qs =>
              rw [hr] at h
              cases h
              cases i with
              | zero => exact ⟨p, by simp, by simp [hf]⟩
              | succ i =>
                  obtain ⟨p2, hp2, ho⟩ := ih qs hr i (by simpa using hi)
                  exact ⟨p2, by simpa using hp2, by simpa using ho⟩

theorem optionMapAll_congr (f g : Pixel → Option Pixel) (hfg : ∀ p, f p = g p) :
    ∀ l : List Pixel, optionMapAll f l = optionMapAll g l := by
  intro l
  induction l with
  | nil => rfl
  | cons p rest ih => simp only [optionMapAll, hfg, ih]

theorem optionMapAll_id :
    ∀ l : List Pixel, optionMapAll (fun p => some p) l = some l := by
  intro l
  induction l with
  | nil => rfl
  | cons p rest ih => simp only [optionMapAll, ih]

theorem gradRow_eq (base : ColorQ) (bottom : Bool) (y0 y1 y : ℕ) (row : List Pixel) :
    (if y0 ≤ y ∧ y < y1 then
       (if gradT bottom y y0 y1 * base.2.2.2 ≤ 0 then some row
        else optionMapAll
          (gradient_blend_pixel base (gradT bottom y y0 y1 * base.2.2.2)) row)
     else some row) = optionMapAll (gradRowFn base bottom y0 y1 y) row := by
  by_cases hband : y0 ≤ y ∧ y < y1
  · rw [if_pos hband]
    by_cases ha : gradT bottom y y0 y1 * base.2.2.2 ≤ 0
    · rw [if_pos ha]
      rw [show optionMapAll (gradRowFn base bottom y0 y1 y) row =
          optionMapAll (fun p => some p) row from
        optionMapAll_congr _ _ (fun p => by simp [gradRowFn, hband, ha]) row]
      rw [optionMapAll_id]
    · rw [if_neg ha]
      exact (optionMapAll_congr _ _ (fun p => by simp [gradRowFn, hband, ha]) row).symm
  · rw [if_neg hband]
    rw [show optionMapAll (gradRowFn base bottom y0 y1 y) row =
        optionMapAll (fun p => some p) row from
      optionMapAll_congr _ _ (fun p => by simp [gradRowFn, hband]) row]
    rw [optionMapAll_id]

theorem gradGo_succ (base : ColorQ) (w : ℕ) (bottom : Bool) (y0 y1 n y : ℕ)
    (rest : List Pixel) :
    gradGo base w bottom y0 y1 (n + 1) y rest =
      match optionMapAll (gradRowFn base bottom y0 y1 y) (rest.take w),
          gradGo base w bottom y0 y1 n (y + 1) (rest.drop w) with
      | some r, some tl => some (r ++ tl)
      | _, _ => none := by
  simp only [gradGo]
  rw [gradRow_eq]

theorem gradGo_char (base : ColorQ) (w : ℕ) (bottom : Bool) (y0 y1 : ℕ) :
    ∀ (n ystart : ℕ) (rest out : List Pixel),
      rest.length = n * w →
      gradGo base w bottom y0 y1 n ystart rest = some out →
      out.length = n * w ∧
      ∀ j xx, j < n → xx < w →
        ∃ p, rest[j * w + xx]? = some p ∧
          out[j * w + xx]? = gradRowFn base bottom y0 y1 (ystart + j) p := by
  intro n
  induction n with
  | zero =>
      intro ystart rest out hlen hs
      simp only [gradGo] at hs
      cases hs
      exact ⟨hlen, fun j xx hj hxx => absurd hj (Nat.not_lt_zero j)⟩
  | succ n ih =>
      intro ystart rest out hlen hs
      rw [gradGo_succ] at hs
      cases hrow : optionMapAll (gradRowFn base bottom y0 y1 ystart) (rest.take w) with
      | none => rw [hrow] at hs; cases hs
      | some row =>
          cases hrec : gradGo base w bottom y0 y1 n (ystart + 1) (rest.drop w) with
          | none => rw [hrow, hrec] at hs; cases hs
          | some tl =>
              rw [hrow, hrec] at hs
              cases hs
              have hrowlen : row.length = w := by
                have hh := optionMapAll_length _ _ _ hrow
                rw [List.length_take, hlen, Nat.succ_mul] at hh
                omega
              have hdroplen : (rest.drop w).length = n * w := by
                rw [List.length_drop, hlen, Nat.succ_mul]
                omega
              obtain ⟨htl_len, htl⟩ := ih (ystart + 1) _ tl hdroplen hrec
              constructor
              · rw [List.length_append, hrowlen, htl_len, Nat.succ_mul]
                omega
              · intro j xx hj hxx
                cases j with
                | zero =>
                    rw [Nat.zero_mul, Nat.zero_add]
                    have h1 : (row ++ tl)[xx]? = row[xx]? := by
                      rw [List.getElem?_append, if_pos (by omega)]
                    obtain ⟨p, hp, hro⟩ := optionMapAll_get _ _ _ hrow xx
                      (by rw [List.length_take, hlen, Nat.succ_mul]; omega)
                    rw [List.getElem?_take, if_pos hxx] at hp
                    refine ⟨p, hp, ?_⟩
                    rw [h1, hro, Nat.add_zero]
                | succ j =>
                    have hidx : (j + 1) * w + xx = w + (j * w + xx) := by
                      rw [Nat.succ_mul]
                      omega
                    have h1 : (row ++ tl)[(j + 1) * w + xx]? = tl[j * w + xx]? := by
                      rw [List.getElem?_append_right (by rw [hrowlen, Nat.succ_mul]; omega),
                        hrowlen]
                      congr 1
                      rw [Nat.succ_mul]
                      omega
                    obtain ⟨p, hp, hto⟩ := htl j xx (by omega) hxx
                    refine ⟨p, ?_, ?_⟩
                    · rw [hidx, ← List.getElem?_drop]
                      exact hp
                    · rw [show ystart + 1 + j = ystart + (j + 1) from by omega] at hto
                      rw [h1, hto]

theorem draw_gradient_char (w h : ℕ) (bottom : Bool) (base : ColorQ)
    (pixels out : List Pixel) (hlen : pixels.length = h * w)
    (hs : draw_gradient w h bottom base pixels = some out) :
    out.length = h * w ∧
    ∀ y xx, y < h → xx < w →
      ∃ p, pixels[y * w + xx]? = some p ∧
        out[y * w + xx]? = gradRowFn base bottom
          (if bottom then 3 * h / 4 else 0) (if bottom then h else h / 4) y p := by
  simp only [draw_gradient] at hs
  by_cases hy : (if bottom then h else h / 4) ≤ (if bottom then 3 * h / 4 else 0)
  · rw [if_pos hy] at hs
    cases hs
    refine ⟨hlen, fun y xx hyh hxx => ?_⟩
    have hidx : y * w + xx < pixels.length := by
      rw [hlen]
      have h1 := twoDim_index_lt xx y w h hxx hyh
      have h2 : w * h = h * w := Nat.mul_comm w h
      omega
    obtain ⟨pv, hpv⟩ : ∃ pv, pixels[y * w + xx]? = some pv :=
      ⟨_, List.getElem?_eq_getElem hidx⟩
    refine ⟨pv, hpv, ?_⟩
    rw [hpv, gradRowFn, if_neg (by omega)]
  · rw [if_neg hy] at hs
    have hres := gradGo_char base w bottom _ _ h 0 pixels out (by rw [hlen]) hs
    refine ⟨hres.1, fun y xx hyh hxx => ?_⟩
    obtain ⟨p, hp, ho⟩ := hres.2 y xx hyh hxx
    rw [Nat.zero_add] at ho
    exact ⟨p, hp, ho⟩

theorem hexDigitVal_le (b v : ℕ) (h : hexDigitVal b = some v) : v ≤ 15 := by
  simp only [hexDigitVal] at h
  split_ifs at h with h1 h2 h3 <;> (injection h with h; omega)

theorem hexDigitsVal_one_le (b acc v : ℕ) (h : hexDigitsVal [b] acc = some v) :
    v ≤ acc * 16 + 15 := by
  simp only [hexDigitsVal] at h
  cases hd : hexDigitVal b with
  | none => rw [hd] at h; cases h
  | some d =>
      rw [hd] at h
      simp only [hexDigitsVal] at h
      injection h with h
      have := hexDigitVal_le b d hd
      omega

theorem hexDigitsVal_two_le (b1 b2 acc v : ℕ)
    (h : hexDigitsVal [b1, b2] acc = some v) : v ≤ acc * 256 + 255 := by
  simp only [hexDigitsVal] at h
  cases hd : hexDigitVal b1 with
  | none => rw [hd] at h; cases h
  | some d =>
      rw [hd] at h
      have h2 := hexDigitsVal_one_le b2 (acc * 16 + d) v h
      have := hexDigitVal_le b1 d hd
      nlinarith

theorem parseHexPair_le (bs : List ℕ) (hlen : bs.length ≤ 2) (v : ℕ)
    (h : parseHexPair bs = some v) : v ≤ 255 := by
  match bs, hlen with
  | [], _ => cases h
  | [b], _ =>
      by_cases h1 : b = 43
      · subst h1
        rw [show parseHexPair [43] = none from rfl] at h
        cases h
      · by_cases h2 : b = 45
        · subst h2
          rw [show parseHexPair [45] = none from rfl] at h
          cases h
        · rw [show parseHexPair [b] = hexDigitsVal [b] 0 from by
            simp [parseHexPair, h1, h2]] at h
          have := hexDigitsVal_one_le b 0 v h
          omega
  | [b1, b2], _ =>
      by_cases h1 : b1 = 43
      · subst h1
        rw [show parseHexPair [43, b2] = hexDigitsVal [b2] 0 from rfl] at h
        have := hexDigitsVal_one_le b2 0 v h
        omega
      · by_cases h2 : b1 = 45
        · subst h2
          rw [show parseHexPair [45, b2] =
              (match hexDigitsVal [b2] 0 with
               | some 0 => some 0
               | _ => none) from rfl] at h
          cases hh : hexDigitsVal [b2] 0 with
          | none => rw [hh] at h; cases h
          | some d =>
              rw [hh] at h
              cases d with
              | zero =>
                  injection h with h
                  omega
              | succ d => cases h
        · rw [show parseHexPair [b1, b2] = hexDigitsVal [b1, b2] 0 from by
            simp [parseHexPair, h1, h2]] at h
          have := hexDigitsVal_two_le b1 b2 0 v h
          omega

theorem parse_hex_color_bounds (s : List ℕ) (c : ℕ × ℕ × ℕ × ℕ)
    (h : parse_hex_color s = some c) :
    c.1 ≤ 255 ∧ c.2.1 ≤ 255 ∧ c.2.2.1 ≤ 255 ∧ c.2.2.2 = 255 := by
  simp only [parse_hex_color] at h
  split_ifs at h with h1 h2
  · injection h with h
    rw [← h]
    refine ⟨by decide, by decide, by decide, rfl⟩
  · injection h with h
    rw [← h]
    refine ⟨?_, ?_, ?_, rfl⟩
    · cases hp : parseHexPair ((s.dropWhile (fun b => b == 35)).take 2) with
      | none => simp [hp]
      | some v =>
          simp only [hp, Option.getD_some]
          exact parseHexPair_le _ (by simp) v hp
    · cases hp : parseHexPair (((s.dropWhile (fun b => b == 35)).drop 2).take 2) with
      | none => simp [hp]
      | some v =>
          simp only [hp, Option.getD_some]
          exact parseHexPair_le _ (by simp) v hp
    · cases hp : parseHexPair ((s.dropWhile (fun b => b == 35)).drop 4) with
      | none => simp [hp]
      | some v =>
          simp only [hp, Option.getD_some]
          refine parseHexPair_le _ ?_ v hp
          rw [List.length_drop]
          omega

theorem toU32_floor (q : ℚ) : toU32 q = (⌊q⌋).toNat := by
  rw [toU32, Rat.floor_def]

theorem toU32_le_255 (q : ℚ) (h : q ≤ 511 / 2) : toU32 q ≤ 255 := by
  rw [toU32_floor]
  have h1 : ⌊q⌋ ≤ 255 := by
    have h2 : ⌊(511 / 2 : ℚ)⌋ = (255 : ℤ) := by
      rw [Int.floor_eq_iff]
      norm_num
    have h3 := Int.floor_le_floor h
    omega
  exact Int.toNat_le.mpr h1

theorem toU32_half : toU32 (1 / 2 : ℚ) = 0 := by
  rw [toU32_floor]
  rw [show ⌊(1 / 2 : ℚ)⌋ = (0 : ℤ) from by rw [Int.floor_eq_iff]; norm_num]
  rfl

theorem gradT_nonneg (bottom : Bool) (y y0 y1 : ℕ) : 0 ≤ gradT bottom y y0 y1 := by
  unfold gradT
  split_ifs <;> positivity

theorem gradT_le_one (bottom : Bool) (y y0 y1 : ℕ) (h0 : y0 ≤ y) (h1 : y < y1) :
    gradT bottom y y0 y1 ≤ 1 := by
  have hpos : (0 : ℚ) < ((y1 - y0 : ℕ) : ℚ) := by
    have : 0 < y1 - y0 := by omega
    exact_mod_cast this
  unfold gradT
  split_ifs
  · rw [div_le_one hpos]
    exact_mod_cast Nat.sub_le_sub_right (le_of_lt h1) y0
  · rw [div_le_one hpos]
    have : y1 - y ≤ y1 - y0 := by omega
    exact_mod_cast this

/-- On a well-formed premultiplied pixel, the fully-transparent overwrite
branch of `draw_gradient`'s pixel loop agrees with the general SrcOver
branch, so every affected pixel is the SrcOver blend of the row color over
the old pixel. -/
theorem gradient_blend_eq_srcOver (base : ColorQ) (alpha : ℚ) (p : Pixel)
    (hval : pixelValid p) (h0 : 0 ≤ alpha) (h1 : alpha ≤ 1)
    (hr1 : base.1 ≤ 1) (hg1 : base.2.1 ≤ 1) (hb1 : base.2.2.1 ≤ 1)
    (hr0 : 0 ≤ base.1) (hg0 : 0 ≤ base.2.1) (hb0 : 0 ≤ base.2.2.1) :
    gradient_blend_pixel base alpha p = srcOverBlend base alpha p := by
  obtain ⟨pr, pg, pb, pa⟩ := p
  by_cases hda : pa = 0
  · obtain ⟨hr, hg, hb, _⟩ := hval
    have hr2 : pr ≤ pa := hr
    have hg2 : pg ≤ pa := hg
    have hb2 : pb ≤ pa := hb
    have hpr : pr = 0 := by omega
    have hpg : pg = 0 := by omega
    have hpb : pb = 0 := by omega
    subst hpr hpg hpb hda
    simp only [gradient_blend_pixel, srcOverBlend]
    rw [if_pos trivial]
    have hbr : toU32 (base.1 * alpha * 255 + 1 / 2) ≤ 255 :=
      toU32_le_255 _ (by nlinarith)
    have hbg : toU32 (base.2.1 * alpha * 255 + 1 / 2) ≤ 255 :=
      toU32_le_255 _ (by nlinarith)
    have hbb : toU32 (base.2.2.1 * alpha * 255 + 1 / 2) ≤ 255 :=
      toU32_le_255 _ (by nlinarith)
    have hz : ∀ x : ℚ, x = 0 → toU32 (x * (1 - alpha) + 1 / 2) = 0 := by
      intro x hx
      rw [hx, zero_mul, zero_add, toU32_half]
    have e1 : ((0 : ℕ) : ℚ) = 0 := by norm_num
    rw [hz _ e1]
    have ea : (alpha + ((0 : ℕ) : ℚ) / 255 * (1 - alpha)) * 255 + 1 / 2 =
        alpha * 255 + 1 / 2 := by
      push_cast
      ring
    rw [ea]
    have er : ∀ n : ℕ, n ≤ 255 → truncU8 n = min (n + 0) 255 := by
      intro n hn
      rw [Nat.add_zero, truncU8, Nat.mod_eq_of_lt (by omega), min_eq_left hn]
    rw [er _ hbr, er _ hbg, er _ hbb]
  · simp only [gradient_blend_pixel]
    rw [if_neg hda]

theorem draw_gradient_char_bot (w h : ℕ) (base : ColorQ) (pixels out : List Pixel)
    (hlen : pixels.length = h * w)
    (hs : draw_gradient w h true base pixels = some out) :
    out.length = h * w ∧
    ∀ y xx, y < h → xx < w →
      ∃ p, pixels[y * w + xx]? = some p ∧
        out[y * w + xx]? = gradRowFn base true (3 * h / 4) h y p := by
  simpa using draw_gradient_char w h true base pixels out hlen hs

theorem draw_gradient_char_top (w h : ℕ) (base : ColorQ) (pixels out : List Pixel)
    (hlen : pixels.length = h * w)
    (hs : draw_gradient w h false base pixels = some out) :
    out.length = h * w ∧
    ∀ y xx, y < h → xx < w →
      ∃ p, pixels[y * w + xx]? = some p ∧
        out[y * w + xx]? = gradRowFn base false 0 (h / 4) y p := by
  simpa using draw_gradient_char w h false base pixels out hlen hs

/-- C6: on a well-formed pixmap, `draw_gradients` leaves every pixel of
every row in the middle 50% of the image (`h/4 ≤ y < 3h/4`) bit-for-bit
unchanged, and every pixel of the top band (`y < h/4`) and the bottom band
(`3h/4 ≤ y < h`) becomes the SrcOver blend
`out = src + dst * (1 - src_alpha)` of the row's premultiplied gradient
color over the old pixel (rows whose interpolated alpha is 0 stay as they
were). -/
theorem c6_draw_gradients (w h : ℕ) (g : List ℕ) (pixels out : List Pixel)
    (hlen : pixels.length = h * w)
    (hval : ∀ p ∈ pixels, pixelValid p)
    (hs : draw_gradients w h g pixels = some out) :
    ∃ c, parse_hex_color g = some c ∧
      (∀ y xx, h / 4 ≤ y → y < 3 * h / 4 → xx < w →
        out[y * w + xx]? = pixels[y * w + xx]?) ∧
      (∀ y xx, y < h → xx < w →
        ∃ p, pixels[y * w + xx]? = some p ∧
          out[y * w + xx]? = gradPixelSpec h (colorOfRgba8 c) y p) := by
  simp only [draw_gradients] at hs
  cases hc : parse_hex_color g with
  | none =>
      rw [hc] at hs
      exact Option.noConfusion hs
  | some c =>
      rw [hc] at hs
      dsimp only at hs
      cases hp1 : draw_gradient w h true (colorOfRgba8 c) pixels with
      | none =>
          rw [hp1] at hs
          exact Option.noConfusion hs
      | some p1 =>
          rw [hp1] at hs
          dsimp only at hs
          obtain ⟨hl1, hchar1⟩ := draw_gradient_char_bot w h _ pixels p1 hlen hp1
          obtain ⟨hl2, hchar2⟩ := draw_gradient_char_top w h _ p1 out hl1 hs
          have hbounds := parse_hex_color_bounds g c hc
          have hbr1 : (colorOfRgba8 c).1 ≤ 1 := by
            simp only [colorOfRgba8]
            rw [div_le_one (by norm_num)]
            exact_mod_cast hbounds.1
          have hbg1 : (colorOfRgba8 c).2.1 ≤ 1 := by
            simp only [colorOfRgba8]
            rw [div_le_one (by norm_num)]
            exact_mod_cast hbounds.2.1
          have hbb1 : (colorOfRgba8 c).2.2.1 ≤ 1 := by
            simp only [colorOfRgba8]
            rw [div_le_one (by norm_num)]
            exact_mod_cast hbounds.2.2.1
          have hbr0 : 0 ≤ (colorOfRgba8 c).1 := by
            simp only [colorOfRgba8]
            positivity
          have hbg0 : 0 ≤ (colorOfRgba8 c).2.1 := by
            simp only [colorOfRgba8]
            positivity
          have hbb0 : 0 ≤ (colorOfRgba8 c).2.2.1 := by
            simp only [colorOfRgba8]
            positivity
          have hba : (colorOfRgba8 c).2.2.2 = 1 := by
            simp only [colorOfRgba8]
            rw [hbounds.2.2.2]
            norm_num
          have hmain : ∀ y xx, y < h → xx < w →
              ∃ p, pixels[y * w + xx]? = some p ∧
                out[y * w + xx]? = gradPixelSpec h (colorOfRgba8 c) y p := by
            intro y xx hyh hxx
            obtain ⟨p, hp, hmid1⟩ := hchar1 y xx hyh hxx
            obtain ⟨q, hq, hout⟩ := hchar2 y xx hyh hxx
            have hpvalid : pixelValid p := by
              apply hval
              exact List.getElem?_mem hp
            refine ⟨p, hp, ?_⟩
            by_cases htop : y < h / 4
            · simp only [gradRowFn, if_neg (show ¬ (3 * h / 4 ≤ y ∧ y < h) by omega)]
                at hmid1
              rw [hq] at hmid1
              injection hmid1 with hqp
              subst hqp
              rw [hout]
              simp only [gradRowFn, gradPixelSpec,
                if_pos (show (0 ≤ y ∧ y < h / 4) from ⟨Nat.zero_le y, htop⟩),
                if_pos htop]
              by_cases ha : gradT false y 0 (h / 4) * (colorOfRgba8 c).2.2.2 ≤ 0
              · rw [if_pos ha, if_pos ha]
              · rw [if_neg ha, if_neg ha]
                apply gradient_blend_eq_srcOver _ _ _ hpvalid
                  (le_of_lt (not_le.mp ha)) ?_ hbr1 hbg1 hbb1 hbr0 hbg0 hbb0
                rw [hba, mul_one]
                exact gradT_le_one false y 0 (h / 4) (Nat.zero_le y) htop
            · by_cases hbot : 3 * h / 4 ≤ y
              · simp only [gradRowFn, if_pos (show 3 * h / 4 ≤ y ∧ y < h from ⟨hbot, hyh⟩)]
                  at hmid1
                simp only [gradRowFn, if_neg (show ¬ (0 ≤ y ∧ y < h / 4) by omega)] at hout
                rw [hq] at hmid1
                rw [hout]
                simp only [gradPixelSpec, if_neg htop,
                  if_pos (show 3 * h / 4 ≤ y ∧ y < h from ⟨hbot, hyh⟩)]
                by_cases ha : gradT true y (3 * h / 4) h * (colorOfRgba8 c).2.2.2 ≤ 0
                · rw [if_pos ha] at hmid1
                  rw [if_pos ha]
                  exact hmid1
                · rw [if_neg ha] at hmid1
                  rw [if_neg ha, hmid1]
                  apply gradient_blend_eq_srcOver _ _ _ hpvalid
                    (le_of_lt (not_le.mp ha)) ?_ hbr1 hbg1 hbb1 hbr0 hbg0 hbb0
                  rw [hba, mul_one]
                  exact gradT_le_one true y (3 * h / 4) h hbot hyh
              · simp only [gradRowFn,
                  if_neg (show ¬ (3 * h / 4 ≤ y ∧ y < h) by omega)] at hmid1
                simp only [gradRowFn, if_neg (show ¬ (0 ≤ y ∧ y < h / 4) by omega)] at hout
                rw [hq] at hmid1
                rw [hout]
                simp only [gradPixelSpec, if_neg htop,
                  if_neg (show ¬ (3 * h / 4 ≤ y ∧ y < h) by omega)]
                exact hmid1
          refine ⟨c, rfl, ?_, hmain⟩
          intro y xx hy1 hy2 hxx
          obtain ⟨p, hp, ho⟩ := hmain y xx (by omega) hxx
          rw [ho, hp]
          simp only [gradPixelSpec, if_neg (show ¬ y < h / 4 by omega),
            if_neg (show ¬ (3 * h / 4 ≤ y ∧ y < h) by omega)]

/-- C6 witness: a 1×2 opaque black pixmap with a black gradient color (both
band rows have interpolation factor 0 here, so the pass returns the pixmap
unchanged). -/
theorem c6_draw_gradients_witness :
    ([((0 : ℕ), (0 : ℕ), (0 : ℕ), (255 : ℕ)), (0, 0, 0, 255)] : List Pixel).length =
      2 * 1 ∧
    (∀ p ∈ ([((0 : ℕ), (0 : ℕ), (0 : ℕ), (255 : ℕ)), (0, 0, 0, 255)] : List Pixel),
      pixelValid p) ∧
    draw_gradients 1 2 bytesBlack [((0 : ℕ), (0 : ℕ), (0 : ℕ), (255 : ℕ)), (0, 0, 0, 255)] =
      some [((0 : ℕ), (0 : ℕ), (0 : ℕ), (255 : ℕ)), (0, 0, 0, 255)] ∧
    (∃ c, parse_hex_color bytesBlack = some c ∧
      (∀ y xx, 2 / 4 ≤ y → y < 3 * 2 / 4 → xx < 1 →
        ([((0 : ℕ), (0 : ℕ), (0 : ℕ), (255 : ℕ)), (0, 0, 0, 255)] :
            List Pixel)[y * 1 + xx]? =
          ([((0 : ℕ), (0 : ℕ), (0 : ℕ), (255 : ℕ)), (0, 0, 0, 255)] :
            List Pixel)[y * 1 + xx]?) ∧
      (∀ y xx, y < 2 → xx < 1 →
        ∃ p, ([((0 : ℕ), (0 : ℕ), (0 : ℕ), (255 : ℕ)), (0, 0, 0, 255)] :
            List Pixel)[y * 1 + xx]? = some p ∧
          ([((0 : ℕ), (0 : ℕ), (0 : ℕ), (255 : ℕ)), (0, 0, 0, 255)] :
            List Pixel)[y * 1 + xx]? = gradPixelSpec 2 (colorOfRgba8 c) y p)) := by
  have hparse : parse_hex_color bytesBlack = some (0, 0, 0, 255) := by decide
  have hs : draw_gradients 1 2 bytesBlack
      [((0 : ℕ), (0 : ℕ), (0 : ℕ), (255 : ℕ)), (0, 0, 0, 255)] =
      some [((0 : ℕ), (0 : ℕ), (0 : ℕ), (255 : ℕ)), (0, 0, 0, 255)] := by
    simp only [draw_gradients, hparse]
    rw [show draw_gradient 1 2 true (colorOfRgba8 (0, 0, 0, 255))
        [((0 : ℕ), (0 : ℕ), (0 : ℕ), (255 : ℕ)), (0, 0, 0, 255)] =
        some [((0 : ℕ), (0 : ℕ), (0 : ℕ), (255 : ℕ)), (0, 0, 0, 255)] from by
      simp [draw_gradient, gradGo, gradT]]
    simp [draw_gradient]
  exact ⟨by decide, by decide, hs,
    c6_draw_gradients 1 2 bytesBlack _ _ (by decide) (by decide) hs⟩

end MapPoster

